import Mathlib

/-! Shunting-yard expression evaluator (`main.c`).

A shallow embedding of the tokenizer, the infix-to-postfix converter and the
postfix evaluator of `main.c`, followed by theorems about them.

Conventions of the embedding.

* `float` is an abstract carrier `F` with the five arithmetic operations the
  evaluator uses and the constant `0.0f` (`FloatOps`).  Theorems quantify over
  every such carrier; concrete evaluations use `intOps`, integer arithmetic,
  which coincides with `float` arithmetic on the small integers used there.
* A `Token` keeps, in place of the pointer `start_position`, the character
  stored at that address: the only use the program makes of the pointer is
  the dereference `*token.start_position`.
* A `TokenStack` is the list of its live items `_items[count-1], ..., _items[0]`,
  top of the stack first; `count` is the length of the list.
* Text written by `printf` is recorded as a list of `Message`s.
* `strtof` belongs to the C library; the tokenizer takes it as a parameter
  that returns the parsed value and the number of characters consumed
  (`end - cursor`).
-/

namespace ShuntingYard

/-! ## Data model -/

/-- The enumeration `TokenKind`. -/
inductive TokenKind where
  | VALUE
  | OPERATOR
  | LEFT_BRACKET
  | RIGHT_BRACKET
  deriving DecidableEq, Repr

/-- The struct `Token`; `start_position` holds the character the pointer of the
same name points at (the NUL character for a null pointer). -/
structure Token (F : Type) where
  start_position : Char
  kind : TokenKind
  value : F
  deriving DecidableEq, Repr

/-- The struct `TokenStack`: the live items, top of the stack first. -/
abbrev TokenStack (F : Type) := List (Token F)

/-- The arithmetic of `float` used by `evaluate`: `0.0f`, `+`, `-`, `*`, `/`
and `powf`. -/
structure FloatOps (F : Type) where
  zero : F
  add : F → F → F
  sub : F → F → F
  mul : F → F → F
  div : F → F → F
  powf : F → F → F

/-- One line written by `printf`. -/
inductive Message where
  /-- The line `"No values to pop."` of `pop`. -/
  | noValuesToPop
  /-- The line `"Mismatched parenthesis."`. -/
  | mismatchedParenthesis
  /-- The line `"Not enough values provided for operator \"%c\""`. -/
  | notEnoughValues (operator : Char)
  /-- The line `"Something went wrong! Expected 1 value left on stack ..., got %d."`. -/
  | unexpectedStackCount (count : Nat)
  /-- The line `"Invalid character! What is a \"%c\"(%d)?"` of `tokenize`. -/
  | invalidCharacter (c : Char)
  deriving DecidableEq, Repr

/-- What a call returns: the `float` result and the lines it printed. -/
structure Outcome (F : Type) where
  result : F
  printed : List Message
  deriving DecidableEq, Repr

/-- The NUL character, which ends a C string and stands for a null
`start_position`. -/
def NUL : Char := Char.ofNat 0

/-! ## Stack primitives -/

/-- The function `get_operator_precedence`. -/
def get_operator_precedence (c : Char) : Nat :=
  if c = '+' then 1
  else if c = '-' then 1
  else if c = '*' then 2
  else if c = '/' then 2
  else if c = '^' then 3
  else 0

/-- The function `push`. -/
def push {F : Type} (token_stack : TokenStack F) (token : Token F) : TokenStack F :=
  token :: token_stack

/-- The zero-initialised token `nothing` of `pop`. -/
def nothing {F : Type} (ops : FloatOps F) : Token F :=
  { start_position := NUL, kind := TokenKind.VALUE, value := ops.zero }

/-- The function `pop`: the popped token, the stack afterwards and what was printed. -/
def pop {F : Type} (ops : FloatOps F) (token_stack : TokenStack F) :
    Token F × TokenStack F × List Message :=
  match token_stack with
  | [] => (nothing ops, [], [Message.noValuesToPop])
  | result :: rest => (result, rest, [])

/-! ## `evaluate`: conversion to postfix -/

/-- The loop `while (precedence <= peeked_precedence)` of the `OPERATOR` branch:
pops the top operator to the output and peeks again, until the test fails or
the operator stack is empty (`break`).  Returns `(operators, output)`. -/
def moveHigherOrEqual {F : Type} (precedence : Nat) :
    TokenStack F → TokenStack F → TokenStack F × TokenStack F
  | [], output => ([], output)
  | peeked_operator :: operators, output =>
    if precedence ≤ get_operator_precedence peeked_operator.start_position then
      moveHigherOrEqual precedence operators (push output peeked_operator)
    else
      (peeked_operator :: operators, output)

/-- The `OPERATOR` branch of the conversion loop. -/
def operatorBranch {F : Type} (token : Token F) (operators output : TokenStack F) :
    TokenStack F × TokenStack F :=
  let precedence := get_operator_precedence token.start_position
  match operators with
  | [] => (push operators token, output)
  | peeked_operator :: _ =>
    if precedence < get_operator_precedence peeked_operator.start_position then
      let moved := moveHigherOrEqual precedence operators output
      (push moved.1 token, moved.2)
    else
      (push operators token, output)

/-- The loop `while (!stop)` of the `RIGHT_BRACKET` branch; `none` is the
early `return 0` after `"Mismatched parenthesis."`. -/
def rightBracketBranch {F : Type} :
    TokenStack F → TokenStack F → Option (TokenStack F × TokenStack F)
  | [], _ => none
  | peeked_operator :: operators, output =>
    if peeked_operator.kind ≠ TokenKind.LEFT_BRACKET then
      rightBracketBranch operators (push output peeked_operator)
    else
      some (operators, output)

/-- The loop `for (i = 0; i < token_count; ...)` building the postfix form,
from the operator stack and output reached so far. -/
def convertLoop {F : Type} :
    List (Token F) → TokenStack F → TokenStack F → Option (TokenStack F × TokenStack F)
  | [], operators, output => some (operators, output)
  | token :: rest, operators, output =>
    match token.kind with
    | TokenKind.VALUE => convertLoop rest operators (push output token)
    | TokenKind.OPERATOR =>
      let next := operatorBranch token operators output
      convertLoop rest next.1 next.2
    | TokenKind.LEFT_BRACKET => convertLoop rest (push operators token) output
    | TokenKind.RIGHT_BRACKET =>
      match rightBracketBranch operators output with
      | none => none
      | some next => convertLoop rest next.1 next.2

/-- The loop `while (operators.count > 0)` moving the remaining operators to
the output. -/
def moveRemaining {F : Type} : TokenStack F → TokenStack F → TokenStack F
  | [], output => output
  | operator :: operators, output => moveRemaining operators (push output operator)

/-- The postfix sequence `output._items[0 .. count)` built by `evaluate`, or
`none` when it returns early on a mismatched parenthesis. -/
def toPostfix {F : Type} (token_buffer : List (Token F)) : Option (List (Token F)) :=
  match convertLoop token_buffer [] [] with
  | none => none
  | some state => some (moveRemaining state.1 state.2).reverse

/-! ## `evaluate`: postfix evaluation -/

/-- The `if`/`else if` chain computing `result` from the two popped values;
`lvalue` is the first value popped, `rvalue` the second. -/
def applyOperator {F : Type} (ops : FloatOps F) (operator : Char) (lvalue rvalue : F) : F :=
  if operator = '+' then ops.add lvalue rvalue
  else if operator = '-' then ops.sub rvalue lvalue
  else if operator = '*' then ops.mul lvalue rvalue
  else if operator = '/' then ops.div rvalue lvalue
  else if operator = '^' then ops.powf rvalue lvalue
  else ops.zero

/-- The token `(Token){ .value = result }`. -/
def resultToken {F : Type} (result : F) : Token F :=
  { start_position := NUL, kind := TokenKind.VALUE, value := result }

/-- The loop `for (i = 0; i < output.count; ...)` over the postfix sequence;
`Except.error c` is the early `return 0.0f` after
`"Not enough values provided for operator \"c\""`. -/
def evaluateLoop {F : Type} (ops : FloatOps F) :
    List (Token F) → TokenStack F → Except Char (TokenStack F)
  | [], value_stack => Except.ok value_stack
  | token :: rest, value_stack =>
    if token.kind = TokenKind.VALUE then
      evaluateLoop ops rest (push value_stack token)
    else
      match value_stack with
      | lvalue :: rvalue :: below =>
        evaluateLoop ops rest
          (push below (resultToken (applyOperator ops token.start_position lvalue.value rvalue.value)))
      | _ => Except.error token.start_position

/-- The end of `evaluate`: the check of the value stack and the final `pop`. -/
def finish {F : Type} (ops : FloatOps F) (value_stack : TokenStack F) : Outcome F :=
  if value_stack.length > 1 then
    { result := ops.zero, printed := [Message.unexpectedStackCount value_stack.length] }
  else
    let popped := pop ops value_stack
    { result := popped.1.value, printed := popped.2.2 }

/-- The function `evaluate`: conversion to postfix, then evaluation of the
postfix sequence on a value stack. -/
def evaluate {F : Type} (ops : FloatOps F) (token_buffer : List (Token F)) : Outcome F :=
  match toPostfix token_buffer with
  | none => { result := ops.zero, printed := [Message.mismatchedParenthesis] }
  | some output =>
    match evaluateLoop ops output [] with
    | Except.error operator =>
      { result := ops.zero, printed := [Message.notEnoughValues operator] }
    | Except.ok value_stack => finish ops value_stack

/-! ## `tokenize` -/

/-- The function `is_bracket`. -/
def is_bracket (c : Char) : Bool :=
  c = '(' || c = ')'

/-- The function `is_start_of_operator`. -/
def is_start_of_operator (c : Char) : Bool :=
  ['+', '-', '*', '/', '^'].any (fun o => c = o)

/-- The function `is_start_of_float`. -/
def is_start_of_float (c : Char) : Bool :=
  ('0' ≤ c && c ≤ '9') || c = '.'

/-- The function `is_whitespace`. -/
def is_whitespace (c : Char) : Bool :=
  [' ', '\t', '\n', '\r'].any (fun w => c = w)

/-- The `VALUE` token written by `tokenize` for a literal whose first
character is `first`. -/
def valueToken {F : Type} (first : Char) (value : F) : Token F :=
  { start_position := first, kind := TokenKind.VALUE, value := value }

/-- The `OPERATOR` token written by `tokenize` at the character `c`. -/
def operatorToken {F : Type} (ops : FloatOps F) (c : Char) : Token F :=
  { start_position := c, kind := TokenKind.OPERATOR, value := ops.zero }

/-- The bracket token written by `tokenize` at the character `bracket`. -/
def bracketToken {F : Type} (ops : FloatOps F) (bracket : Char) : Token F :=
  { start_position := bracket,
    kind := if bracket = '(' then TokenKind.LEFT_BRACKET else TokenKind.RIGHT_BRACKET,
    value := ops.zero }

/-- What one iteration of the scanning loop does. -/
inductive Scan (F : Type) where
  /-- The iteration wrote `emitted` (no token or one) and left the cursor at
  `cursor`. -/
  | next (emitted : List (Token F)) (cursor : List Char)
  /-- The iteration printed `"Invalid character!"` and returned. -/
  | invalid (c : Char)

/-- The body of the loop `while (*cursor != '\0')` of `tokenize`, at a cursor
whose first character is `c` (not NUL) and whose remaining text is `rest`. -/
def tokenizeStep {F : Type} (strtof : List Char → F × Nat) (ops : FloatOps F)
    (c : Char) (rest : List Char) : Scan F :=
  if is_start_of_float c then
    let parsed := strtof (c :: rest)
    Scan.next [valueToken c parsed.1] ((c :: rest).drop parsed.2)
  else if is_start_of_operator c then
    Scan.next [operatorToken ops c] rest
  else if is_bracket c then
    Scan.next [bracketToken ops c] rest
  else if is_whitespace c then
    Scan.next [] ((c :: rest).dropWhile is_whitespace)
  else
    Scan.invalid c

/-- The loop of `tokenize` run for at most `fuel` iterations from `cursor`:
the tokens written from there on and what was printed; `none` when the loop
has not ended after `fuel` iterations. -/
def tokenizeLoop {F : Type} (strtof : List Char → F × Nat) (ops : FloatOps F) :
    Nat → List Char → Option (List (Token F) × List Message)
  | 0, _ => none
  | _ + 1, [] => some ([], [])
  | fuel + 1, c :: rest =>
    if c = NUL then some ([], [])
    else
      match tokenizeStep strtof ops c rest with
      | Scan.invalid bad => some ([], [Message.invalidCharacter bad])
      | Scan.next emitted cursor =>
        match tokenizeLoop strtof ops fuel cursor with
        | none => none
        | some later => some (emitted ++ later.1, later.2)

/-- The function `tokenize`: the tokens `token_buffer[0 .. token_count)` and
what was printed.  A run of the loop that ends at all ends within
`input_buffer.length + 1` iterations (`tokenizeLoop_enough`), so `none` means
that the loop never ends (`tokenize_eq_none_iff`). -/
def tokenize {F : Type} (strtof : List Char → F × Nat) (ops : FloatOps F)
    (input_buffer : List Char) : Option (List (Token F) × List Message) :=
  tokenizeLoop strtof ops (input_buffer.length + 1) input_buffer

/-- The function `evaluate_expression`: `tokenize`, then `evaluate` on the
tokens written, whatever `tokenize` printed. -/
def evaluate_expression {F : Type} (strtof : List Char → F × Nat) (ops : FloatOps F)
    (s : List Char) : Option (Outcome F) :=
  match tokenize strtof ops s with
  | none => none
  | some scanned =>
    let outcome := evaluate ops scanned.1
    some { result := outcome.result, printed := scanned.2 ++ outcome.printed }

/-! ## Concrete arithmetic for evaluations -/

/-- Integer arithmetic as a `FloatOps`: on integers of magnitude below `2^24`
with exact quotients it agrees with `float` arithmetic. -/
def intOps : FloatOps Int :=
  { zero := 0
    add := fun a b => a + b
    sub := fun a b => a - b
    mul := fun a b => a * b
    div := fun a b => a / b
    powf := fun a b => a ^ b.toNat }

/-- The value of a run of decimal digits. -/
def digitsValue (digits : List Char) : Nat :=
  digits.foldl (fun acc c => 10 * acc + (c.toNat - '0'.toNat)) 0

/-- An instance of the `strtof` parameter: reads the longest run of decimal
digits.  It agrees with the C library's `strtof` wherever that run is not
followed by `.`, `e`, `E`, `x` or `X` and its value is below `2^24`, and also
at a `.` that no digit follows, where both perform no conversion: the value
is 0 and no character is consumed. -/
def strtofDigits (text : List Char) : Int × Nat :=
  let digits := text.takeWhile Char.isDigit
  (Int.ofNat (digitsValue digits), digits.length)

/-! ## Specification-side definitions -/

/-- The binary operation named by an operator symbol, applied to a left and a
right operand as the specification writes it: `left + right`, `left - right`,
`left * right`, `left / right`, `left` to the power `right`. -/
def binop {F : Type} (ops : FloatOps F) (symbol : Char) (left right : F) : F :=
  if symbol = '+' then ops.add left right
  else if symbol = '-' then ops.sub left right
  else if symbol = '*' then ops.mul left right
  else if symbol = '/' then ops.div left right
  else if symbol = '^' then ops.powf left right
  else ops.zero

/-- Reference evaluation of a bracket-free expression once its first additive
operator has been met: `sum` is the value of the terms completed so far,
`pending` the additive operator in front of the current term, `term` the
value of the current term. -/
def referenceLoop {F : Type} (ops : FloatOps F) (sum : F) (pending : Char) (term : F) :
    List (Char × F) → F
  | [] => binop ops pending sum term
  | (symbol, value) :: rest =>
    if symbol = '*' ∨ symbol = '/' then
      referenceLoop ops sum pending (binop ops symbol term value) rest
    else
      referenceLoop ops (binop ops pending sum term) symbol value rest

/-- Reference evaluation of the bracket-free expression
`first op₁ v₁ op₂ v₂ ...`: `*` and `/` bind tighter than `+` and `-`, and
operators of equal precedence are applied left to right. -/
def referenceValue {F : Type} (ops : FloatOps F) (first : F) : List (Char × F) → F
  | [] => first
  | (symbol, value) :: rest =>
    if symbol = '*' ∨ symbol = '/' then
      referenceValue ops (binop ops symbol first value) rest
    else
      referenceLoop ops first symbol value rest

/-- The number of tokens of a given kind. -/
def countKind {F : Type} (kind : TokenKind) (tokens : List (Token F)) : Nat :=
  tokens.countP (fun token => token.kind = kind)

/-- A character that `tokenize` rejects: not NUL, and in none of the four
classes `is_start_of_float`, `is_start_of_operator`, `is_bracket`,
`is_whitespace`. -/
def unrecognized (c : Char) : Bool :=
  c ≠ NUL && !is_start_of_float c && !is_start_of_operator c && !is_bracket c &&
    !is_whitespace c

/-- The state of `tokenize` after exactly `n` full iterations of its loop
started at `cursor`: the tokens written and the cursor reached; `none` when
the loop ends or returns earlier. -/
def scan {F : Type} (strtof : List Char → F × Nat) (ops : FloatOps F) :
    Nat → List Char → Option (List (Token F) × List Char)
  | 0, cursor => some ([], cursor)
  | _ + 1, [] => none
  | n + 1, c :: rest =>
    if c = NUL then none
    else
      match tokenizeStep strtof ops c rest with
      | Scan.invalid _ => none
      | Scan.next emitted cursor =>
        match scan strtof ops n cursor with
        | none => none
        | some later => some (emitted ++ later.1, later.2)

/-- The end pointer set by `strtof` stays inside the text. -/
def StrtofWithinText {F : Type} (strtof : List Char → F × Nat) : Prop :=
  ∀ text, (strtof text).2 ≤ text.length

/-- A literal never extends across whitespace: when `strtof` stops inside the
part `literal` of a text, what it returns does not depend on how much
whitespace (`gap`, `gap'`) follows that part, as long as some whitespace
remains where there was some. -/
def StrtofStopsAtWhitespace {F : Type} (strtof : List Char → F × Nat) : Prop :=
  ∀ literal gap gap' rest, literal ≠ [] →
    (∀ c ∈ gap, is_whitespace c = true) → (∀ c ∈ gap', is_whitespace c = true) →
    (gap ≠ [] → gap' ≠ []) →
    (strtof (literal ++ gap ++ rest)).2 ≤ literal.length →
    strtof (literal ++ gap' ++ rest) = strtof (literal ++ gap ++ rest)

/-- Two cursors from which the loop of `tokenize` ends in the same way, or at
both of which it never ends. -/
def SameScan {F : Type} (strtof : List Char → F × Nat) (ops : FloatOps F)
    (cursor cursor' : List Char) : Prop :=
  ∀ result, (∃ fuel, tokenizeLoop strtof ops fuel cursor = some result) ↔
    (∃ fuel, tokenizeLoop strtof ops fuel cursor' = some result)

/-- The invariant of the tokens written by `tokenize`: an `OPERATOR` token
starts at one of `+ - * / ^`, a `LEFT_BRACKET` token at `(` and a
`RIGHT_BRACKET` token at `)`. -/
def wellFormed {F : Type} (token : Token F) : Bool :=
  match token.kind with
  | TokenKind.VALUE => true
  | TokenKind.OPERATOR => is_start_of_operator token.start_position
  | TokenKind.LEFT_BRACKET => token.start_position = '('
  | TokenKind.RIGHT_BRACKET => token.start_position = ')'

/-- The number of left brackets still open after `tokens`, starting from
`depth` open ones; `none` when a right bracket arrives while none is open. -/
def bracketDepth {F : Type} : List (Token F) → Nat → Option Nat
  | [], depth => some depth
  | token :: rest, depth =>
    match token.kind with
    | TokenKind.LEFT_BRACKET => bracketDepth rest (depth + 1)
    | TokenKind.RIGHT_BRACKET =>
      match depth with
      | 0 => none
      | open_before + 1 => bracketDepth rest open_before
    | _ => bracketDepth rest depth

/-- The constant `MAX_TOKENS`, the capacity of a `TokenStack` and of the token
buffer. -/
def MAX_TOKENS : Nat := 1024

/-- The loop `while (operators.count > 0)` at the end of the conversion, with
both stacks: the same loop as `moveRemaining`, returning also the operator
stack it leaves. -/
def drainOperators {F : Type} : TokenStack F → TokenStack F → TokenStack F × TokenStack F
  | [], output => ([], output)
  | operator :: operators, output => drainOperators operators (push output operator)

/-- An instance of the `strtof` parameter that also reads a decimal exponent:
a run of digits and, when `e` or `E` and at least one digit follow it, that
exponent.  It agrees with the C library's `strtof` on a run of digits followed
by `e` and digits, such as `1e2`, which is 100 and three characters long. -/
def strtofExponent (text : List Char) : Int × Nat :=
  let digits := text.takeWhile Char.isDigit
  match text.drop digits.length with
  | [] => (Int.ofNat (digitsValue digits), digits.length)
  | e :: more =>
    let exponent := more.takeWhile Char.isDigit
    if (e = 'e' ∨ e = 'E') ∧ digits ≠ [] ∧ exponent ≠ [] then
      (Int.ofNat (digitsValue digits * 10 ^ digitsValue exponent),
        digits.length + 1 + exponent.length)
    else
      (Int.ofNat (digitsValue digits), digits.length)

/-- What `strtof` returns is decided by the characters up to where it stops:
when it stops inside the part `front` of a text, it returns the same on
`front` alone. -/
def StrtofReadsLiteralOnly {F : Type} (strtof : List Char → F × Nat) : Prop :=
  ∀ front rest, (strtof (front ++ rest)).2 ≤ front.length →
    strtof front = strtof (front ++ rest)

/-- The precedence `p(op)` of the specification: 1 for `+` and `-`, 2 for `*`
and `/`, 3 for `^`. -/
def referencePrecedence (symbol : Char) : Nat :=
  if symbol = '+' ∨ symbol = '-' then 1
  else if symbol = '*' ∨ symbol = '/' then 2
  else if symbol = '^' then 3
  else 0

/-- Reference converter, operator rule: while the stack top is an operator with
precedence at least `p`, pop it to the output. -/
def referencePopOperators {F : Type} (p : Nat) :
    List (Token F) → List (Token F) → List (Token F) × List (Token F)
  | [], output => ([], output)
  | top :: stack, output =>
    if top.kind = TokenKind.OPERATOR ∧ p ≤ referencePrecedence top.start_position then
      referencePopOperators p stack (output ++ [top])
    else
      (top :: stack, output)

/-- Reference converter, right-bracket rule: pop operators to the output until
a left bracket is found and discard it; `none` when the stack empties first. -/
def referencePopToBracket {F : Type} :
    List (Token F) → List (Token F) → Option (List (Token F) × List (Token F))
  | [], _ => none
  | top :: stack, output =>
    if top.kind = TokenKind.LEFT_BRACKET then some (stack, output)
    else referencePopToBracket stack (output ++ [top])

/-- Reference converter of the specification, from a stack (top first) and an
output sequence (in order): a value is appended to the output; an operator
first pops the operators of precedence at least its own and is then pushed; a
left bracket is pushed; a right bracket pops down to the nearest left
bracket. -/
def referenceConvertLoop {F : Type} :
    List (Token F) → List (Token F) → List (Token F) →
      Option (List (Token F) × List (Token F))
  | [], stack, output => some (stack, output)
  | token :: rest, stack, output =>
    match token.kind with
    | TokenKind.VALUE => referenceConvertLoop rest stack (output ++ [token])
    | TokenKind.OPERATOR =>
      let popped := referencePopOperators (referencePrecedence token.start_position)
        stack output
      referenceConvertLoop rest (token :: popped.1) popped.2
    | TokenKind.LEFT_BRACKET => referenceConvertLoop rest (token :: stack) output
    | TokenKind.RIGHT_BRACKET =>
      match referencePopToBracket stack output with
      | none => none
      | some popped => referenceConvertLoop rest popped.1 popped.2

/-- Reference converter of the specification: at the end of the input the
remaining stack entries are popped to the output in pop order; `none` is
`MismatchedParenthesis`. -/
def referencePostfix {F : Type} (tokens : List (Token F)) : Option (List (Token F)) :=
  match referenceConvertLoop tokens [] [] with
  | none => none
  | some state => some (state.2 ++ state.1)

/-- The tokens of a given kind, in the order in which they occur. -/
def tokensOfKind {F : Type} (kind : TokenKind) (tokens : List (Token F)) : List (Token F) :=
  tokens.filter (fun token => token.kind = kind)

/-! ## Character classes -/

theorem whitespace_class (c : Char) (h : is_whitespace c = true) :
    c ≠ NUL ∧ is_start_of_float c = false ∧ is_start_of_operator c = false ∧
      is_bracket c = false := by
  simp [is_whitespace] at h
  rcases h with rfl | rfl | rfl | rfl <;> decide

/-! ## Arithmetic examples and grouping -/

/-- C1 (code defect): `evaluate_expression` returns the reference value on the
two examples `2 + 3 * 4` (14) and `2 * 3 + 4` (10), but on `1 - 2 + 3`, two
operators of equal precedence, it returns `1 - (2 + 3) = -4` where the
left-to-right reference value is `(1 - 2) + 3 = 2`. -/
theorem evaluate_expression_sub_add_groups_right :
    evaluate_expression strtofDigits intOps "2 + 3 * 4".toList = some ⟨14, []⟩ ∧
    referenceValue intOps 2 [('+', 3), ('*', 4)] = 14 ∧
    evaluate_expression strtofDigits intOps "2 * 3 + 4".toList = some ⟨10, []⟩ ∧
    referenceValue intOps 2 [('*', 3), ('+', 4)] = 10 ∧
    evaluate_expression strtofDigits intOps "1 - 2 + 3".toList = some ⟨-4, []⟩ ∧
    referenceValue intOps 1 [('-', 2), ('+', 3)] = 2 := by
  decide

/-- C2 (code defect): for all values `a`, `b`, `c` the chain `a - b - c` is
evaluated as `a - (b - c)` and `a / b / c` as `a / (b / c)`; `10 - 2 - 3`
gives 11 and `20 / 2 / 2` gives 20. -/
theorem evaluate_sub_div_chain_groups_right {F : Type} (ops : FloatOps F) (a b c : F)
    (pa pb pc : Char) :
    evaluate ops [valueToken pa a, operatorToken ops '-', valueToken pb b,
      operatorToken ops '-', valueToken pc c] = ⟨ops.sub a (ops.sub b c), []⟩ ∧
    evaluate ops [valueToken pa a, operatorToken ops '/', valueToken pb b,
      operatorToken ops '/', valueToken pc c] = ⟨ops.div a (ops.div b c), []⟩ ∧
    evaluate_expression strtofDigits intOps "10 - 2 - 3".toList = some ⟨11, []⟩ ∧
    evaluate_expression strtofDigits intOps "20 / 2 / 2".toList = some ⟨20, []⟩ := by
  refine ⟨rfl, rfl, ?_, ?_⟩ <;> decide

/-- C3 (code defect): for all values `a`, `b`, `c` the chain `a ^ b ^ c` is
evaluated as `a ^ (b ^ c)`; `2 ^ 3 ^ 2` gives 512, not 64. -/
theorem evaluate_pow_chain_groups_right {F : Type} (ops : FloatOps F) (a b c : F)
    (pa pb pc : Char) :
    evaluate ops [valueToken pa a, operatorToken ops '^', valueToken pb b,
      operatorToken ops '^', valueToken pc c] = ⟨ops.powf a (ops.powf b c), []⟩ ∧
    evaluate_expression strtofDigits intOps "2 ^ 3 ^ 2".toList = some ⟨512, []⟩ := by
  refine ⟨rfl, ?_⟩
  decide

theorem applyOperator_eq_binop {F : Type} (ops : FloatOps F)
    (hadd : ∀ x y, ops.add x y = ops.add y x) (hmul : ∀ x y, ops.mul x y = ops.mul y x)
    (symbol : Char) (left right : F) :
    applyOperator ops symbol right left = binop ops symbol left right := by
  unfold applyOperator binop
  rw [hadd right left, hmul right left]

/-- C4: brackets override precedence.  With `+` and `*` commutative (as they
are for `float`), for all operator symbols `op1`, `op2` (in particular any of
`+ - * / ^`) and all values `a`, `b`, `c`, evaluating `(a op1 b) op2 c` returns `(a op1 b) op2 c`
and evaluating `a op2 (b op1 c)` returns `a op2 (b op1 c)`, with nothing
printed; `(2 + 3) * 4` gives 20. -/
theorem evaluate_bracket_grouping {F : Type} (ops : FloatOps F)
    (hadd : ∀ x y, ops.add x y = ops.add y x) (hmul : ∀ x y, ops.mul x y = ops.mul y x)
    (op1 op2 : Char) (a b c : F) (pa pb pc : Char) :
    evaluate ops [bracketToken ops '(', valueToken pa a, operatorToken ops op1,
      valueToken pb b, bracketToken ops ')', operatorToken ops op2, valueToken pc c]
      = ⟨binop ops op2 (binop ops op1 a b) c, []⟩ ∧
    evaluate ops [valueToken pa a, operatorToken ops op2, bracketToken ops '(',
      valueToken pb b, operatorToken ops op1, valueToken pc c, bracketToken ops ')']
      = ⟨binop ops op2 a (binop ops op1 b c), []⟩ ∧
    evaluate_expression strtofDigits intOps "(2 + 3) * 4".toList = some ⟨20, []⟩ := by
  have hprec : ∀ op : Char, ¬ get_operator_precedence op < get_operator_precedence '(' := by
    intro op
    have h0 : get_operator_precedence '(' = 0 := by decide
    omega
  have hl : (if '(' = '(' then TokenKind.LEFT_BRACKET else TokenKind.RIGHT_BRACKET)
      = TokenKind.LEFT_BRACKET := by decide
  have hr : (if ')' = '(' then TokenKind.LEFT_BRACKET else TokenKind.RIGHT_BRACKET)
      = TokenKind.RIGHT_BRACKET := by decide
  refine ⟨?_, ?_, by decide⟩
  · simp [evaluate, toPostfix, convertLoop, operatorBranch, rightBracketBranch,
      moveRemaining, evaluateLoop, finish, pop, push, bracketToken, valueToken,
      operatorToken, resultToken, hprec, hl, hr,
      applyOperator_eq_binop ops hadd hmul]
  · simp [evaluate, toPostfix, convertLoop, operatorBranch, rightBracketBranch,
      moveRemaining, evaluateLoop, finish, pop, push, bracketToken, valueToken,
      operatorToken, resultToken, hprec, hl, hr,
      applyOperator_eq_binop ops hadd hmul]

theorem evaluate_bracket_grouping_witness :
    evaluate intOps [bracketToken intOps '(', valueToken '2' 2, operatorToken intOps '+',
      valueToken '3' 3, bracketToken intOps ')', operatorToken intOps '*', valueToken '4' 4]
      = ⟨binop intOps '*' (binop intOps '+' 2 3) 4, []⟩ ∧
    evaluate intOps [valueToken '2' 2, operatorToken intOps '*', bracketToken intOps '(',
      valueToken '3' 3, operatorToken intOps '+', valueToken '4' 4, bracketToken intOps ')']
      = ⟨binop intOps '*' 2 (binop intOps '+' 3 4), []⟩ ∧
    evaluate_expression strtofDigits intOps "(2 + 3) * 4".toList = some ⟨20, []⟩ :=
  evaluate_bracket_grouping intOps (fun x y => Int.add_comm x y)
    (fun x y => Int.mul_comm x y) '+' '*' 2 3 4 '2' '3' '4'

/-! ## The tokenizer loop -/

theorem dropWhile_whitespace_eq_nil (gap : List Char)
    (hgap : ∀ c ∈ gap, is_whitespace c = true) : gap.dropWhile is_whitespace = [] := by
  induction gap with
  | nil => rfl
  | cons c rest ih =>
    have hc := hgap c (List.mem_cons_self c rest)
    simp only [List.dropWhile_cons, hc, if_true]
    exact ih (fun d hd => hgap d (List.mem_cons_of_mem c hd))

theorem dropWhile_whitespace_append (gap rest : List Char)
    (hgap : ∀ c ∈ gap, is_whitespace c = true) :
    (gap ++ rest).dropWhile is_whitespace = rest.dropWhile is_whitespace := by
  induction gap with
  | nil => rfl
  | cons c tail ih =>
    have hc := hgap c (List.mem_cons_self c tail)
    simp only [List.cons_append, List.dropWhile_cons, hc, if_true]
    exact ih (fun d hd => hgap d (List.mem_cons_of_mem c hd))

theorem tokenizeStep_whitespace {F : Type} (strtof : List Char → F × Nat) (ops : FloatOps F)
    (c : Char) (rest : List Char) (hc : is_whitespace c = true) :
    tokenizeStep strtof ops c rest = Scan.next [] (rest.dropWhile is_whitespace) := by
  obtain ⟨_, hf, ho, hb⟩ := whitespace_class c hc
  simp [tokenizeStep, hf, ho, hb, hc, List.dropWhile_cons]

theorem tokenizeLoop_cons {F : Type} (strtof : List Char → F × Nat) (ops : FloatOps F)
    (fuel : Nat) (c : Char) (rest : List Char) (hc : c ≠ NUL) :
    tokenizeLoop strtof ops (fuel + 1) (c :: rest) =
      match tokenizeStep strtof ops c rest with
      | Scan.invalid bad => some ([], [Message.invalidCharacter bad])
      | Scan.next emitted cursor =>
        match tokenizeLoop strtof ops fuel cursor with
        | none => none
        | some later => some (emitted ++ later.1, later.2) := by
  simp [tokenizeLoop, hc]

/-- More fuel does not change a run that has ended. -/
theorem tokenizeLoop_mono {F : Type} (strtof : List Char → F × Nat) (ops : FloatOps F) :
    ∀ (fuel : Nat) (cursor : List Char) (result : List (Token F) × List Message),
      tokenizeLoop strtof ops fuel cursor = some result →
      ∀ extra, tokenizeLoop strtof ops (fuel + extra) cursor = some result := by
  intro fuel
  induction fuel with
  | zero => intro cursor result h; simp [tokenizeLoop] at h
  | succ fuel ih =>
    intro cursor result h extra
    have hfuel : fuel + 1 + extra = (fuel + extra) + 1 := by omega
    rw [hfuel]
    cases cursor with
    | nil => simpa [tokenizeLoop] using h
    | cons c rest =>
      by_cases hc : c = NUL
      · simpa [tokenizeLoop, hc] using h
      · rw [tokenizeLoop_cons strtof ops _ c rest hc] at h ⊢
        cases hstep : tokenizeStep strtof ops c rest with
        | invalid bad => simpa [hstep] using h
        | next emitted cursor =>
          simp only [hstep] at h ⊢
          cases hlater : tokenizeLoop strtof ops fuel cursor with
          | none => simp [hlater] at h
          | some later =>
            rw [ih cursor later hlater extra]
            simpa [hlater] using h

/-- An iteration that does not stop either shortens the text left to scan or
writes a token without moving the cursor. -/
theorem tokenizeStep_progress {F : Type} (strtof : List Char → F × Nat) (ops : FloatOps F)
    (c : Char) (rest : List Char) (emitted : List (Token F)) (cursor : List Char)
    (h : tokenizeStep strtof ops c rest = Scan.next emitted cursor) :
    cursor.length ≤ rest.length ∨ (cursor = c :: rest ∧ emitted ≠ []) := by
  unfold tokenizeStep at h
  split at h
  · injection h with he hcur
    by_cases hk : (strtof (c :: rest)).2 = 0
    · right
      subst he hcur
      simp [hk]
    · left
      subst hcur
      simp only [List.length_drop, List.length_cons]
      omega
  · split at h
    · injection h with _ hcur
      left; subst hcur; exact le_refl _
    · split at h
      · injection h with _ hcur
        left; subst hcur; exact le_refl _
      · split at h
        · rename_i hws
          injection h with _ hcur
          left
          subst hcur
          simp only [List.dropWhile_cons, hws, if_true]
          exact (List.dropWhile_sublist is_whitespace).length_le
        · cases h

/-- At a cursor that an iteration leaves where it is, the loop never ends. -/
theorem tokenizeLoop_stuck {F : Type} (strtof : List Char → F × Nat) (ops : FloatOps F)
    (c : Char) (rest : List Char) (emitted : List (Token F)) (hc : c ≠ NUL)
    (hstep : tokenizeStep strtof ops c rest = Scan.next emitted (c :: rest)) :
    ∀ fuel, tokenizeLoop strtof ops fuel (c :: rest) = none := by
  intro fuel
  induction fuel with
  | zero => rfl
  | succ fuel ih =>
    rw [tokenizeLoop_cons strtof ops _ c rest hc]
    simp [hstep, ih]

/-- A run that ends with some fuel ends with the fuel `tokenize` provides. -/
theorem tokenizeLoop_enough {F : Type} (strtof : List Char → F × Nat) (ops : FloatOps F) :
    ∀ (fuel : Nat) (cursor : List Char) (result : List (Token F) × List Message),
      tokenizeLoop strtof ops fuel cursor = some result →
      tokenizeLoop strtof ops (cursor.length + 1) cursor = some result := by
  intro fuel
  induction fuel with
  | zero => intro cursor result h; simp [tokenizeLoop] at h
  | succ fuel ih =>
    intro cursor result h
    cases cursor with
    | nil => simpa [tokenizeLoop] using h
    | cons c rest =>
      by_cases hc : c = NUL
      · simpa [tokenizeLoop, hc] using h
      · have hstuck := tokenizeLoop_stuck strtof ops c rest
        rw [tokenizeLoop_cons strtof ops _ c rest hc] at h
        rw [List.length_cons, tokenizeLoop_cons strtof ops _ c rest hc]
        cases hstep : tokenizeStep strtof ops c rest with
        | invalid bad => simpa [hstep] using h
        | next emitted cursor =>
          simp only [hstep] at h ⊢
          cases hlater : tokenizeLoop strtof ops fuel cursor with
          | none => simp [hlater] at h
          | some later =>
            rcases tokenizeStep_progress strtof ops c rest emitted cursor hstep with hlen | ⟨hcur, _⟩
            · have h1 := ih cursor later hlater
              have h2 := tokenizeLoop_mono strtof ops _ cursor later h1
                (rest.length - cursor.length)
              have hfuel : cursor.length + 1 + (rest.length - cursor.length)
                  = rest.length + 1 := by omega
              rw [hfuel] at h2
              rw [h2]
              simpa [hlater] using h
            · subst hcur
              rw [hstuck emitted hc hstep fuel] at hlater
              cases hlater

theorem tokenize_of_tokenizeLoop {F : Type} (strtof : List Char → F × Nat) (ops : FloatOps F)
    (fuel : Nat) (cursor : List Char) (result : List (Token F) × List Message)
    (h : tokenizeLoop strtof ops fuel cursor = some result) :
    tokenize strtof ops cursor = some result :=
  tokenizeLoop_enough strtof ops fuel cursor result h

/-- The result `none` of `tokenize` stands for a loop that no number of
iterations ends. -/
theorem tokenize_eq_none_iff {F : Type} (strtof : List Char → F × Nat) (ops : FloatOps F)
    (input_buffer : List Char) :
    tokenize strtof ops input_buffer = none ↔
      ∀ fuel, tokenizeLoop strtof ops fuel input_buffer = none := by
  constructor
  · intro h fuel
    cases hrun : tokenizeLoop strtof ops fuel input_buffer with
    | none => rfl
    | some result =>
      rw [tokenize_of_tokenizeLoop strtof ops fuel input_buffer result hrun] at h
      cases h
  · intro h
    exact h _

/-- Cursors from which the loop behaves alike give `tokenize` the same result. -/
theorem tokenize_eq_of_sameScan {F : Type} (strtof : List Char → F × Nat) (ops : FloatOps F)
    (cursor cursor' : List Char) (h : SameScan strtof ops cursor cursor') :
    tokenize strtof ops cursor = tokenize strtof ops cursor' := by
  cases h1 : tokenize strtof ops cursor with
  | some result =>
    obtain ⟨fuel, hfuel⟩ := (h result).1 ⟨_, h1⟩
    exact (tokenize_of_tokenizeLoop strtof ops fuel cursor' result hfuel).symm
  | none =>
    cases h2 : tokenize strtof ops cursor' with
    | none => rfl
    | some result =>
      obtain ⟨fuel, hfuel⟩ := (h result).2 ⟨_, h2⟩
      rw [tokenize_of_tokenizeLoop strtof ops fuel cursor result hfuel] at h1
      cases h1

theorem scan_cons {F : Type} (strtof : List Char → F × Nat) (ops : FloatOps F)
    (n : Nat) (c : Char) (rest : List Char) (hc : c ≠ NUL) :
    scan strtof ops (n + 1) (c :: rest) =
      match tokenizeStep strtof ops c rest with
      | Scan.invalid _ => none
      | Scan.next emitted cursor =>
        match scan strtof ops n cursor with
        | none => none
        | some later => some (emitted ++ later.1, later.2) := by
  simp [scan, hc]

/-- Unfolding of a successful `scan` of at least one iteration. -/
theorem scan_succ_inv {F : Type} (strtof : List Char → F × Nat) (ops : FloatOps F)
    (n : Nat) (text : List Char) (tokens : List (Token F)) (final : List Char)
    (h : scan strtof ops (n + 1) text = some (tokens, final)) :
    ∃ c rest emitted cursor later, text = c :: rest ∧ c ≠ NUL ∧
      tokenizeStep strtof ops c rest = Scan.next emitted cursor ∧
      scan strtof ops n cursor = some (later, final) ∧ tokens = emitted ++ later := by
  cases text with
  | nil => simp [scan] at h
  | cons c rest =>
    by_cases hc : c = NUL
    · simp [scan, hc] at h
    · rw [scan_cons strtof ops n c rest hc] at h
      cases hstep : tokenizeStep strtof ops c rest with
      | invalid bad => simp [hstep] at h
      | next emitted cursor =>
        simp only [hstep] at h
        cases hlater : scan strtof ops n cursor with
        | none => simp [hlater] at h
        | some later =>
          simp only [hlater, Option.some.injEq, Prod.mk.injEq] at h
          refine ⟨c, rest, emitted, cursor, later.1, rfl, hc, hstep, ?_, h.1.symm⟩
          rw [← h.2, hlater]

/-- The loop run on from the state reached by `scan`. -/
theorem tokenizeLoop_of_scan {F : Type} (strtof : List Char → F × Nat) (ops : FloatOps F) :
    ∀ (n : Nat) (text : List Char) (tokens : List (Token F)) (final : List Char)
      (fuel : Nat) (later : List (Token F) × List Message),
      scan strtof ops n text = some (tokens, final) →
      tokenizeLoop strtof ops fuel final = some later →
      tokenizeLoop strtof ops (n + fuel) text = some (tokens ++ later.1, later.2) := by
  intro n
  induction n with
  | zero =>
    intro text tokens final fuel later hscan hloop
    simp only [scan, Option.some.injEq, Prod.mk.injEq] at hscan
    obtain ⟨ht, hf⟩ := hscan
    subst ht hf
    simpa using hloop
  | succ n ih =>
    intro text tokens final fuel later hscan hloop
    obtain ⟨c, rest, emitted, cursor, mid, htext, hc, hstep, hrest, htok⟩ :=
      scan_succ_inv strtof ops n text tokens final hscan
    subst htext htok
    have hfuel : n + 1 + fuel = (n + fuel) + 1 := by omega
    rw [hfuel, tokenizeLoop_cons strtof ops _ c rest hc]
    simp [hstep, ih cursor mid final fuel later hrest hloop]

theorem tokenizeLoop_unrecognized {F : Type} (strtof : List Char → F × Nat) (ops : FloatOps F)
    (c : Char) (rest : List Char) (hc : unrecognized c = true) :
    tokenizeLoop strtof ops 1 (c :: rest) = some ([], [Message.invalidCharacter c]) := by
  simp only [unrecognized, Bool.and_eq_true, Bool.not_eq_true', decide_eq_true_eq] at hc
  obtain ⟨⟨⟨⟨hnul, hf⟩, ho⟩, hb⟩, hw⟩ := hc
  rw [tokenizeLoop_cons strtof ops 0 c rest hnul]
  simp [tokenizeStep, hf, ho, hb, hw]

/-- C5 (as amended): when the scan of `s` reaches, after the tokens `tokens`, a
character `c` that is not NUL, a digit, `.`, an operator, a bracket or
whitespace, `tokenize` returns exactly `tokens` and prints the
invalid-character message for `c`, and `evaluate_expression` does not stop
there: it returns the result of `evaluate` on `tokens`. -/
theorem evaluate_expression_unrecognized {F : Type} (strtof : List Char → F × Nat)
    (ops : FloatOps F) (n : Nat) (s : List Char) (tokens : List (Token F)) (c : Char)
    (rest : List Char) (hscan : scan strtof ops n s = some (tokens, c :: rest))
    (hc : unrecognized c = true) :
    tokenize strtof ops s = some (tokens, [Message.invalidCharacter c]) ∧
    evaluate_expression strtof ops s =
      some ⟨(evaluate ops tokens).result,
        Message.invalidCharacter c :: (evaluate ops tokens).printed⟩ := by
  have hloop := tokenizeLoop_of_scan strtof ops n s tokens (c :: rest) 1 _ hscan
    (tokenizeLoop_unrecognized strtof ops c rest hc)
  have htok := tokenize_of_tokenizeLoop strtof ops _ s _ hloop
  simp only [List.append_nil] at htok
  refine ⟨htok, ?_⟩
  simp [evaluate_expression, htok]

theorem evaluate_expression_unrecognized_witness :
    tokenize strtofDigits intOps "1 @ 2".toList
      = some ([valueToken '1' 1], [Message.invalidCharacter '@']) ∧
    evaluate_expression strtofDigits intOps "1 @ 2".toList =
      some ⟨(evaluate intOps [valueToken '1' 1]).result,
        Message.invalidCharacter '@' :: (evaluate intOps [valueToken '1' 1]).printed⟩ :=
  evaluate_expression_unrecognized strtofDigits intOps 2 "1 @ 2".toList [valueToken '1' 1]
    '@' " 2".toList (by decide) (by decide)

/-- C5 (counterexample): on `1 @ 2` the invalid character `@` is reported, yet
`evaluate_expression` returns 1, computed from the token scanned before it;
and in `@ #` only `@`, the character the scan reaches, is reported, not `#`. -/
theorem evaluate_expression_at_sign_returns_one :
    evaluate_expression strtofDigits intOps "1 @ 2".toList
      = some ⟨1, [Message.invalidCharacter '@']⟩ ∧
    tokenize strtofDigits intOps "@ #".toList
      = some ([], [Message.invalidCharacter '@']) := by
  decide

/-- C10: `evaluate` on an empty token sequence returns 0 (the final `pop`
finds the value stack empty and returns the zero token), and so does
`evaluate_expression` on a text made of whitespace only, which `tokenize`
turns into no token. -/
theorem evaluate_empty {F : Type} (strtof : List Char → F × Nat) (ops : FloatOps F)
    (text : List Char) (htext : ∀ c ∈ text, is_whitespace c = true) :
    evaluate ops [] = ⟨ops.zero, [Message.noValuesToPop]⟩ ∧
    tokenize strtof ops text = some ([], []) ∧
    evaluate_expression strtof ops text = some ⟨ops.zero, [Message.noValuesToPop]⟩ := by
  have hev : evaluate ops [] = ⟨ops.zero, [Message.noValuesToPop]⟩ := rfl
  have htok : tokenize strtof ops text = some ([], []) := by
    cases text with
    | nil => rfl
    | cons c rest =>
      have hc := htext c (List.mem_cons_self c rest)
      have hrest := dropWhile_whitespace_eq_nil rest
        (fun d hd => htext d (List.mem_cons_of_mem c hd))
      apply tokenize_of_tokenizeLoop strtof ops 2
      rw [tokenizeLoop_cons strtof ops 1 c rest (whitespace_class c hc).1,
        tokenizeStep_whitespace strtof ops c rest hc, hrest]
      rfl
  refine ⟨hev, htok, ?_⟩
  simp [evaluate_expression, htok, hev]

theorem evaluate_empty_witness :
    evaluate intOps [] = ⟨intOps.zero, [Message.noValuesToPop]⟩ ∧
    tokenize strtofDigits intOps " \t\n".toList = some ([], []) ∧
    evaluate_expression strtofDigits intOps " \t\n".toList
      = some ⟨intOps.zero, [Message.noValuesToPop]⟩ :=
  evaluate_empty strtofDigits intOps " \t\n".toList (by decide)

/-! ## The evaluator loop -/

/-- Stack height at the end of a run of the evaluator loop that does not stop
early. -/
theorem evaluateLoop_length {F : Type} (ops : FloatOps F) :
    ∀ (rpn : List (Token F)) (value_stack final : TokenStack F),
      evaluateLoop ops rpn value_stack = Except.ok final →
      final.length + rpn.length
        = value_stack.length + 2 * countKind TokenKind.VALUE rpn ∧
      (countKind TokenKind.VALUE rpn < rpn.length ∨ 1 ≤ value_stack.length →
        1 ≤ final.length) := by
  intro rpn
  induction rpn with
  | nil =>
    intro value_stack final h
    simp only [evaluateLoop, Except.ok.injEq] at h
    subst h
    simp [countKind]
  | cons head rest ih =>
    intro value_stack final h
    by_cases hk : head.kind = TokenKind.VALUE
    · simp only [evaluateLoop, hk, if_true] at h
      obtain ⟨h1, h2⟩ := ih _ final h
      simp only [push, List.length_cons] at h1 h2
      have hc : countKind TokenKind.VALUE (head :: rest)
          = countKind TokenKind.VALUE rest + 1 := by
        simp [countKind, List.countP_cons, hk]
      rw [hc, List.length_cons]
      exact ⟨by omega, fun _ => h2 (Or.inr (by omega))⟩
    · have hc : countKind TokenKind.VALUE (head :: rest)
          = countKind TokenKind.VALUE rest := by
        simp [countKind, List.countP_cons, hk]
      match value_stack, h with
      | [], h => simp [evaluateLoop, hk] at h
      | [_], h => simp [evaluateLoop, hk] at h
      | lvalue :: rvalue :: below, h =>
        simp only [evaluateLoop, hk, if_false] at h
        obtain ⟨h1, h2⟩ := ih _ final h
        simp only [push, List.length_cons] at h1 h2
        rw [hc]
        simp only [List.length_cons]
        exact ⟨by omega, fun _ => h2 (Or.inr (by omega))⟩

/-! ## The conversion loop -/

theorem countKind_nil {F : Type} (kind : TokenKind) :
    countKind kind ([] : List (Token F)) = 0 := rfl

theorem countKind_cons {F : Type} (kind : TokenKind) (token : Token F) (rest : List (Token F)) :
    countKind kind (token :: rest)
      = countKind kind rest + (if token.kind = kind then 1 else 0) := by
  simp [countKind, List.countP_cons]

theorem countKind_append {F : Type} (kind : TokenKind) (first second : List (Token F)) :
    countKind kind (first ++ second) = countKind kind first + countKind kind second := by
  simp [countKind, List.countP_append]

theorem countKind_reverse {F : Type} (kind : TokenKind) (tokens : List (Token F)) :
    countKind kind tokens.reverse = countKind kind tokens := by
  simp [countKind]

theorem countKind_eq_zero {F : Type} (kind : TokenKind) (tokens : List (Token F))
    (h : ∀ token ∈ tokens, token.kind ≠ kind) : countKind kind tokens = 0 := by
  induction tokens with
  | nil => rfl
  | cons head rest ih =>
    rw [countKind_cons, ih (fun t ht => h t (List.mem_cons_of_mem head ht)),
      if_neg (h head (List.mem_cons_self head rest))]

theorem length_eq_countKind {F : Type} (tokens : List (Token F)) :
    tokens.length = countKind TokenKind.VALUE tokens + countKind TokenKind.OPERATOR tokens
      + countKind TokenKind.LEFT_BRACKET tokens
      + countKind TokenKind.RIGHT_BRACKET tokens := by
  induction tokens with
  | nil => rfl
  | cons head rest ih =>
    simp only [countKind_cons, List.length_cons]
    cases hk : head.kind <;> simp <;> omega

theorem moveRemaining_eq {F : Type} :
    ∀ (operators output : TokenStack F),
      moveRemaining operators output = operators.reverse ++ output := by
  intro operators
  induction operators with
  | nil => intro output; rfl
  | cons head rest ih =>
    intro output
    simp [moveRemaining, push, ih]

/-- What the loop `while (precedence <= peeked_precedence)` does: it moves a
top segment of the operator stack, all of precedence at least `precedence`, to
the output. -/
theorem moveHigherOrEqual_spec {F : Type} (precedence : Nat) :
    ∀ (operators output : TokenStack F),
      ∃ moved, operators = moved ++ (moveHigherOrEqual precedence operators output).1 ∧
        (moveHigherOrEqual precedence operators output).2 = moved.reverse ++ output ∧
        ∀ token ∈ moved, precedence ≤ get_operator_precedence token.start_position := by
  intro operators
  induction operators with
  | nil => intro output; exact ⟨[], rfl, rfl, by simp⟩
  | cons head rest ih =>
    intro output
    by_cases h : precedence ≤ get_operator_precedence head.start_position
    · obtain ⟨moved, h1, h2, h3⟩ := ih (push output head)
      refine ⟨head :: moved, ?_, ?_, ?_⟩
      · simp only [moveHigherOrEqual, h, if_true, List.cons_append]
        rw [← h1]
      · simp only [moveHigherOrEqual, h, if_true]
        rw [h2]
        simp [push]
      · intro token ht
        rcases List.mem_cons.1 ht with rfl | ht
        · exact h
        · exact h3 token ht
    · exact ⟨[], by simp [moveHigherOrEqual, h], by simp [moveHigherOrEqual, h], by simp⟩

/-- What the `OPERATOR` branch does: it moves a top segment of the operator
stack, all of precedence at least that of the incoming operator, to the
output, and pushes the incoming operator. -/
theorem operatorBranch_spec {F : Type} (token : Token F) (operators output : TokenStack F) :
    ∃ moved remaining, operators = moved ++ remaining ∧
      operatorBranch token operators output = (token :: remaining, moved.reverse ++ output) ∧
      ∀ other ∈ moved, get_operator_precedence token.start_position
        ≤ get_operator_precedence other.start_position := by
  cases operators with
  | nil => exact ⟨[], [], rfl, rfl, by simp⟩
  | cons head rest =>
    by_cases h : get_operator_precedence token.start_position
        < get_operator_precedence head.start_position
    · obtain ⟨moved, h1, h2, h3⟩ :=
        moveHigherOrEqual_spec (get_operator_precedence token.start_position)
          (head :: rest) output
      refine ⟨moved, _, h1, ?_, h3⟩
      simp only [operatorBranch, h, if_true, push]
      rw [h2]
    · exact ⟨[], head :: rest, rfl, by simp [operatorBranch, h, push], by simp⟩

theorem rightBracketBranch_none_iff {F : Type} :
    ∀ (operators output : TokenStack F),
      rightBracketBranch operators output = none ↔
        countKind TokenKind.LEFT_BRACKET operators = 0 := by
  intro operators
  induction operators with
  | nil => intro output; simp [rightBracketBranch, countKind]
  | cons head rest ih =>
    intro output
    by_cases h : head.kind = TokenKind.LEFT_BRACKET
    · simp [rightBracketBranch, countKind_cons, h]
    · simp only [rightBracketBranch, ne_eq, h, not_false_eq_true, if_true, countKind_cons,
        if_false, Nat.add_zero]
      exact ih _

/-- What the `RIGHT_BRACKET` branch does when it finds a left bracket: it moves
the operators above the topmost left bracket to the output and drops that
bracket. -/
theorem rightBracketBranch_some {F : Type} :
    ∀ (operators output remaining output' : TokenStack F),
      rightBracketBranch operators output = some (remaining, output') →
      ∃ moved bracket, operators = moved ++ bracket :: remaining ∧
        bracket.kind = TokenKind.LEFT_BRACKET ∧
        (∀ token ∈ moved, token.kind ≠ TokenKind.LEFT_BRACKET) ∧
        output' = moved.reverse ++ output := by
  intro operators
  induction operators with
  | nil => intro output remaining output' h; simp [rightBracketBranch] at h
  | cons head rest ih =>
    intro output remaining output' h
    by_cases hk : head.kind = TokenKind.LEFT_BRACKET
    · simp only [rightBracketBranch, ne_eq, hk, not_true_eq_false, if_false,
        Option.some.injEq, Prod.mk.injEq] at h
      obtain ⟨h1, h2⟩ := h
      subst h1 h2
      exact ⟨[], head, rfl, hk, by simp, rfl⟩
    · simp only [rightBracketBranch, ne_eq, hk, not_false_eq_true, if_true] at h
      obtain ⟨moved, bracket, h1, h2, h3, h4⟩ := ih _ _ _ h
      refine ⟨head :: moved, bracket, by simp [h1], h2, ?_, by simp [h4, push]⟩
      intro token ht
      rcases List.mem_cons.1 ht with rfl | ht
      · exact hk
      · exact h3 token ht

theorem convertLoop_cons {F : Type} (token : Token F) (rest : List (Token F))
    (operators output : TokenStack F) :
    convertLoop (token :: rest) operators output =
      match token.kind with
      | TokenKind.VALUE => convertLoop rest operators (push output token)
      | TokenKind.OPERATOR =>
        convertLoop rest (operatorBranch token operators output).1
          (operatorBranch token operators output).2
      | TokenKind.LEFT_BRACKET => convertLoop rest (push operators token) output
      | TokenKind.RIGHT_BRACKET =>
        match rightBracketBranch operators output with
        | none => none
        | some next => convertLoop rest next.1 next.2 := by
  rfl

/-- Bookkeeping of the conversion loop: it neither creates nor loses `VALUE`
tokens, and every token read adds one entry to the two stacks together, apart
from a right bracket, which is not stored and removes one left bracket. -/
theorem convertLoop_counts {F : Type} :
    ∀ (tokens : List (Token F)) (operators output operators' output' : TokenStack F),
      convertLoop tokens operators output = some (operators', output') →
      countKind TokenKind.VALUE operators' + countKind TokenKind.VALUE output'
        = countKind TokenKind.VALUE tokens + countKind TokenKind.VALUE operators
          + countKind TokenKind.VALUE output ∧
      operators'.length + output'.length + 2 * countKind TokenKind.RIGHT_BRACKET tokens
        = tokens.length + operators.length + output.length := by
  intro tokens
  induction tokens with
  | nil =>
    intro operators output operators' output' h
    simp only [convertLoop, Option.some.injEq, Prod.mk.injEq] at h
    obtain ⟨h1, h2⟩ := h
    subst h1 h2
    simp [countKind]
  | cons head rest ih =>
    intro operators output operators' output' h
    rw [convertLoop_cons] at h
    simp only [countKind_cons, List.length_cons]
    cases hk : head.kind with
    | VALUE =>
      simp only [hk] at h
      obtain ⟨h1, h2⟩ := ih _ _ _ _ h
      simp only [push, countKind_cons, List.length_cons, hk, reduceCtorEq, if_true,
        if_false] at h1 h2 ⊢
      omega
    | OPERATOR =>
      simp only [hk] at h
      obtain ⟨moved, remaining, hsplit, hbranch, _⟩ := operatorBranch_spec head operators output
      rw [hbranch] at h
      obtain ⟨h1, h2⟩ := ih _ _ _ _ h
      subst hsplit
      simp only [countKind_cons, countKind_append, countKind_reverse, List.length_cons,
        List.length_append, List.length_reverse, hk, reduceCtorEq, if_true,
        if_false] at h1 h2 ⊢
      omega
    | LEFT_BRACKET =>
      simp only [hk] at h
      obtain ⟨h1, h2⟩ := ih _ _ _ _ h
      simp only [push, countKind_cons, List.length_cons, hk, reduceCtorEq, if_true,
        if_false] at h1 h2 ⊢
      omega
    | RIGHT_BRACKET =>
      simp only [hk] at h
      cases hb : rightBracketBranch operators output with
      | none => simp [hb] at h
      | some next =>
        obtain ⟨remaining, output''⟩ := next
        simp only [hb] at h
        obtain ⟨moved, bracket, hsplit, hbk, _, hout⟩ :=
          rightBracketBranch_some _ _ _ _ hb
        obtain ⟨h1, h2⟩ := ih _ _ _ _ h
        subst hsplit hout
        simp only [countKind_cons, countKind_append, countKind_reverse, List.length_cons,
          List.length_append, List.length_reverse, hbk, reduceCtorEq, if_true,
          if_false] at h1 h2 ⊢
        omega

theorem toPostfix_eq {F : Type} (tokens : List (Token F)) :
    toPostfix tokens =
      match convertLoop tokens [] [] with
      | none => none
      | some state => some (state.2.reverse ++ state.1) := by
  unfold toPostfix
  cases convertLoop tokens [] [] with
  | none => rfl
  | some state => simp [moveRemaining_eq]

theorem finish_printed_ne {F : Type} (ops : FloatOps F) (value_stack : TokenStack F) :
    (finish ops value_stack).printed ≠ [Message.mismatchedParenthesis] ∧
    ∀ c, (finish ops value_stack).printed ≠ [Message.notEnoughValues c] := by
  match value_stack with
  | [] => simp [finish, pop]
  | [_] => simp [finish, pop]
  | _ :: _ :: _ => simp [finish]

/-- C7 (as amended): a token sequence with more left than right brackets in
which the `VALUE` tokens number at most one more than the `OPERATOR` tokens
never evaluates silently: `evaluate` prints "Mismatched parenthesis." or
"Not enough values provided for operator ..." and returns 0. -/
theorem evaluate_unclosed_bracket {F : Type} (ops : FloatOps F) (tokens : List (Token F))
    (hopen : countKind TokenKind.RIGHT_BRACKET tokens
      < countKind TokenKind.LEFT_BRACKET tokens)
    (hvalues : countKind TokenKind.VALUE tokens
      ≤ countKind TokenKind.OPERATOR tokens + 1) :
    (evaluate ops tokens).result = ops.zero ∧
    ((evaluate ops tokens).printed = [Message.mismatchedParenthesis] ∨
      ∃ c, (evaluate ops tokens).printed = [Message.notEnoughValues c]) := by
  unfold evaluate
  rw [toPostfix_eq]
  cases hconv : convertLoop tokens [] [] with
  | none => simp
  | some state =>
    obtain ⟨operators, output⟩ := state
    simp only
    cases hrun : evaluateLoop ops (output.reverse ++ operators) [] with
    | error operator => simp
    | ok stack =>
      exfalso
      obtain ⟨hv, hl⟩ := convertLoop_counts tokens [] [] operators output hconv
      obtain ⟨h1, h2⟩ := evaluateLoop_length ops _ [] stack hrun
      have hlen := length_eq_countKind tokens
      simp only [countKind_append, countKind_reverse, countKind_nil, List.length_append,
        List.length_reverse, List.length_nil] at hv hl h1 h2
      omega

theorem evaluate_unclosed_bracket_witness :
    (evaluate intOps [bracketToken intOps '(', valueToken '1' 1, operatorToken intOps '+',
      valueToken '2' 2]).result = intOps.zero ∧
    ((evaluate intOps [bracketToken intOps '(', valueToken '1' 1, operatorToken intOps '+',
      valueToken '2' 2]).printed = [Message.mismatchedParenthesis] ∨
      ∃ c, (evaluate intOps [bracketToken intOps '(', valueToken '1' 1,
        operatorToken intOps '+', valueToken '2' 2]).printed
          = [Message.notEnoughValues c]) :=
  evaluate_unclosed_bracket intOps [bracketToken intOps '(', valueToken '1' 1,
    operatorToken intOps '+', valueToken '2' 2] (by decide) (by decide)

/-- C7 (counterexample): in `(1 2` the left bracket is never closed and no
right bracket comes too early, yet `evaluate` returns 0 and prints nothing:
the bracket reaches the evaluator as an operator that consumes both values. -/
theorem evaluate_unclosed_bracket_silent :
    tokenize strtofDigits intOps "(1 2".toList
      = some ([bracketToken intOps '(', valueToken '1' 1, valueToken '2' 2], []) ∧
    bracketDepth [bracketToken intOps '(', valueToken '1' 1, valueToken '2' 2] 0 = some 1 ∧
    evaluate intOps [bracketToken intOps '(', valueToken '1' 1, valueToken '2' 2]
      = ⟨0, []⟩ ∧
    evaluate_expression strtofDigits intOps "(1 2".toList = some ⟨0, []⟩ := by
  decide

/-! ## Mismatched right brackets -/

theorem precedence_pos_of_operator (c : Char) (h : is_start_of_operator c = true) :
    1 ≤ get_operator_precedence c := by
  simp [is_start_of_operator] at h
  rcases h with rfl | rfl | rfl | rfl | rfl <;> decide

theorem bracketDepth_cons {F : Type} (token : Token F) (rest : List (Token F)) (depth : Nat) :
    bracketDepth (token :: rest) depth =
      match token.kind with
      | TokenKind.LEFT_BRACKET => bracketDepth rest (depth + 1)
      | TokenKind.RIGHT_BRACKET =>
        match depth with
        | 0 => none
        | open_before + 1 => bracketDepth rest open_before
      | _ => bracketDepth rest depth := by
  rfl

/-- The running bracket depth fails exactly when some initial segment of the
tokens holds more right brackets than the depth at the start plus its left
brackets. -/
theorem bracketDepth_none_iff {F : Type} :
    ∀ (tokens : List (Token F)) (depth : Nat),
      bracketDepth tokens depth = none ↔
        ∃ n, depth + countKind TokenKind.LEFT_BRACKET (tokens.take n)
          < countKind TokenKind.RIGHT_BRACKET (tokens.take n) := by
  intro tokens
  induction tokens with
  | nil =>
    intro depth
    simp [bracketDepth, countKind_nil]
  | cons head rest ih =>
    intro depth
    have hstep : ∀ shift : Nat,
        (∃ n, depth + countKind TokenKind.LEFT_BRACKET ((head :: rest).take n)
          < countKind TokenKind.RIGHT_BRACKET ((head :: rest).take n)) ↔
        ∃ m, depth + countKind TokenKind.LEFT_BRACKET (head :: rest.take m)
          < countKind TokenKind.RIGHT_BRACKET (head :: rest.take m) := by
      intro _
      constructor
      · rintro ⟨n, hn⟩
        cases n with
        | zero => simp [countKind_nil] at hn
        | succ m => exact ⟨m, by simpa using hn⟩
      · rintro ⟨m, hm⟩
        exact ⟨m + 1, by simpa using hm⟩
    rw [hstep 0, bracketDepth_cons]
    simp only [countKind_cons]
    cases hk : head.kind with
    | VALUE => simpa using ih depth
    | OPERATOR => simpa using ih depth
    | LEFT_BRACKET =>
      simp only [reduceCtorEq, if_true, if_false, Nat.add_zero]
      rw [ih (depth + 1)]
      constructor
      · rintro ⟨n, hn⟩; exact ⟨n, by omega⟩
      · rintro ⟨n, hn⟩; exact ⟨n, by omega⟩
    | RIGHT_BRACKET =>
      simp only [reduceCtorEq, if_true, if_false, Nat.add_zero]
      cases depth with
      | zero =>
        simp only [true_iff]
        exact ⟨0, by simp [countKind_nil]⟩
      | succ before =>
        simp only
        rw [ih before]
        constructor
        · rintro ⟨n, hn⟩; exact ⟨n, by omega⟩
        · rintro ⟨n, hn⟩; exact ⟨n, by omega⟩

/-- On tokens as `tokenize` writes them, the conversion loop returns early
exactly when the running bracket depth fails. -/
theorem convertLoop_none_iff {F : Type} :
    ∀ (tokens : List (Token F)) (operators output : TokenStack F),
      (∀ token ∈ tokens, wellFormed token = true) →
      (∀ token ∈ operators, token.kind = TokenKind.LEFT_BRACKET →
        get_operator_precedence token.start_position = 0) →
      (convertLoop tokens operators output = none ↔
        bracketDepth tokens (countKind TokenKind.LEFT_BRACKET operators) = none) := by
  intro tokens
  induction tokens with
  | nil => intro operators output _ _; simp [convertLoop, bracketDepth]
  | cons head rest ih =>
    intro operators output hwf hinv
    have hhead := hwf head (List.mem_cons_self head rest)
    have hrest : ∀ token ∈ rest, wellFormed token = true :=
      fun t ht => hwf t (List.mem_cons_of_mem head ht)
    rw [convertLoop_cons, bracketDepth_cons]
    cases hk : head.kind with
    | VALUE => exact ih _ _ hrest hinv
    | OPERATOR =>
      simp only
      obtain ⟨moved, remaining, hsplit, hbranch, hmoved⟩ :=
        operatorBranch_spec head operators output
      rw [hbranch]
      have hpos : 1 ≤ get_operator_precedence head.start_position := by
        apply precedence_pos_of_operator
        simpa [wellFormed, hk] using hhead
      have hnone : countKind TokenKind.LEFT_BRACKET moved = 0 := by
        apply countKind_eq_zero
        intro token ht hkind
        have h0 := hinv token (by rw [hsplit]; exact List.mem_append_left _ ht) hkind
        have h1 := hmoved token ht
        omega
      have hcount : countKind TokenKind.LEFT_BRACKET operators
          = countKind TokenKind.LEFT_BRACKET (head :: remaining) := by
        rw [hsplit, countKind_append, hnone, countKind_cons, hk]
        simp
      rw [hcount]
      apply ih _ _ hrest
      intro token ht hkind
      rcases List.mem_cons.1 ht with rfl | ht
      · rw [hk] at hkind; cases hkind
      · exact hinv token (by rw [hsplit]; exact List.mem_append_right _ ht) hkind
    | LEFT_BRACKET =>
      simp only
      have hcount : countKind TokenKind.LEFT_BRACKET (push operators head)
          = countKind TokenKind.LEFT_BRACKET operators + 1 := by
        rw [push, countKind_cons, hk]
        simp
      rw [← hcount]
      apply ih _ _ hrest
      intro token ht hkind
      rcases List.mem_cons.1 ht with rfl | ht
      · have hsym : token.start_position = '(' := by
          simpa [wellFormed, hk] using hhead
        rw [hsym]
        decide
      · exact hinv token ht hkind
    | RIGHT_BRACKET =>
      simp only
      cases hb : rightBracketBranch operators output with
      | none =>
        rw [(rightBracketBranch_none_iff operators output).1 hb]
        simp
      | some next =>
        obtain ⟨remaining, output'⟩ := next
        obtain ⟨moved, bracket, hsplit, hbk, hmoved, _⟩ :=
          rightBracketBranch_some _ _ _ _ hb
        have hcount : countKind TokenKind.LEFT_BRACKET operators
            = countKind TokenKind.LEFT_BRACKET remaining + 1 := by
          rw [hsplit, countKind_append, countKind_eq_zero _ moved hmoved, countKind_cons, hbk]
          simp
        rw [hcount]
        simp only
        apply ih _ _ hrest
        intro token ht hkind
        exact hinv token (by rw [hsplit]; simp [ht]) hkind

/-- C8: on tokens as `tokenize` writes them, the conversion returns early with
"Mismatched parenthesis." if and only if some initial segment of the token
sequence holds more `RIGHT_BRACKET` than `LEFT_BRACKET` tokens. -/
theorem evaluate_mismatched_iff {F : Type} (ops : FloatOps F) (tokens : List (Token F))
    (hwf : ∀ token ∈ tokens, wellFormed token = true) :
    (toPostfix tokens = none ↔
      ∃ n, countKind TokenKind.LEFT_BRACKET (tokens.take n)
        < countKind TokenKind.RIGHT_BRACKET (tokens.take n)) ∧
    ((evaluate ops tokens).printed = [Message.mismatchedParenthesis] ↔
      ∃ n, countKind TokenKind.LEFT_BRACKET (tokens.take n)
        < countKind TokenKind.RIGHT_BRACKET (tokens.take n)) := by
  have hconv := convertLoop_none_iff tokens [] [] hwf (by simp)
  rw [countKind_nil, bracketDepth_none_iff] at hconv
  simp only [Nat.zero_add] at hconv
  have hpost : toPostfix tokens = none ↔ convertLoop tokens [] [] = none := by
    rw [toPostfix_eq]
    cases convertLoop tokens [] [] <;> simp
  refine ⟨hpost.trans hconv, ?_⟩
  rw [← hconv, ← hpost]
  unfold evaluate
  cases toPostfix tokens with
  | none => simp
  | some rpn =>
    simp only [reduceCtorEq, iff_false]
    cases evaluateLoop ops rpn [] with
    | error operator => simp
    | ok stack => exact (finish_printed_ne ops stack).1

theorem evaluate_mismatched_iff_witness :
    (toPostfix [valueToken '1' 1, operatorToken intOps '+', valueToken '2' 2,
        bracketToken intOps ')'] = none ↔
      ∃ n, countKind TokenKind.LEFT_BRACKET (List.take n [valueToken '1' (1 : Int),
          operatorToken intOps '+', valueToken '2' 2, bracketToken intOps ')'])
        < countKind TokenKind.RIGHT_BRACKET (List.take n [valueToken '1' (1 : Int),
          operatorToken intOps '+', valueToken '2' 2, bracketToken intOps ')'])) ∧
    ((evaluate intOps [valueToken '1' 1, operatorToken intOps '+', valueToken '2' 2,
        bracketToken intOps ')']).printed = [Message.mismatchedParenthesis] ↔
      ∃ n, countKind TokenKind.LEFT_BRACKET (List.take n [valueToken '1' (1 : Int),
          operatorToken intOps '+', valueToken '2' 2, bracketToken intOps ')'])
        < countKind TokenKind.RIGHT_BRACKET (List.take n [valueToken '1' (1 : Int),
          operatorToken intOps '+', valueToken '2' 2, bracketToken intOps ')'])) :=
  evaluate_mismatched_iff intOps [valueToken '1' 1, operatorToken intOps '+',
    valueToken '2' 2, bracketToken intOps ')'] (by decide)

/-! ## Whitespace -/

theorem SameScan.refl {F : Type} (strtof : List Char → F × Nat) (ops : FloatOps F)
    (cursor : List Char) : SameScan strtof ops cursor cursor :=
  fun _ => Iff.rfl

theorem SameScan.symm {F : Type} {strtof : List Char → F × Nat} {ops : FloatOps F}
    {cursor cursor' : List Char} (h : SameScan strtof ops cursor cursor') :
    SameScan strtof ops cursor' cursor :=
  fun result => (h result).symm

theorem SameScan.trans {F : Type} {strtof : List Char → F × Nat} {ops : FloatOps F}
    {first second third : List Char} (h : SameScan strtof ops first second)
    (h' : SameScan strtof ops second third) : SameScan strtof ops first third :=
  fun result => (h result).trans (h' result)

/-- The runs of the loop from a cursor where an iteration goes on, in terms of
the runs from the cursor that iteration reaches. -/
theorem tokenizeLoop_next_iff {F : Type} (strtof : List Char → F × Nat) (ops : FloatOps F)
    (c : Char) (rest : List Char) (emitted : List (Token F)) (cursor : List Char)
    (hc : c ≠ NUL) (hstep : tokenizeStep strtof ops c rest = Scan.next emitted cursor)
    (result : List (Token F) × List Message) :
    (∃ fuel, tokenizeLoop strtof ops fuel (c :: rest) = some result) ↔
      ∃ later, (∃ fuel, tokenizeLoop strtof ops fuel cursor = some later) ∧
        result = (emitted ++ later.1, later.2) := by
  constructor
  · rintro ⟨fuel, h⟩
    cases fuel with
    | zero => simp [tokenizeLoop] at h
    | succ fuel =>
      rw [tokenizeLoop_cons strtof ops fuel c rest hc] at h
      simp only [hstep] at h
      cases hlater : tokenizeLoop strtof ops fuel cursor with
      | none => simp [hlater] at h
      | some later =>
        simp only [hlater, Option.some.injEq] at h
        exact ⟨later, ⟨fuel, hlater⟩, h.symm⟩
  · rintro ⟨later, ⟨fuel, hlater⟩, hres⟩
    refine ⟨fuel + 1, ?_⟩
    rw [tokenizeLoop_cons strtof ops fuel c rest hc]
    simp only [hstep, hlater, hres]

/-- Two cursors with the same first character, from which one iteration writes
the same tokens and reaches cursors where the loop behaves alike. -/
theorem SameScan.step {F : Type} (strtof : List Char → F × Nat) (ops : FloatOps F)
    (c : Char) (rest rest' : List Char) (emitted : List (Token F)) (cursor cursor' : List Char)
    (hc : c ≠ NUL) (hstep : tokenizeStep strtof ops c rest = Scan.next emitted cursor)
    (hstep' : tokenizeStep strtof ops c rest' = Scan.next emitted cursor')
    (h : SameScan strtof ops cursor cursor') :
    SameScan strtof ops (c :: rest) (c :: rest') := by
  intro result
  rw [tokenizeLoop_next_iff strtof ops c rest emitted cursor hc hstep result,
    tokenizeLoop_next_iff strtof ops c rest' emitted cursor' hc hstep' result]
  constructor
  · rintro ⟨later, hrun, hres⟩
    exact ⟨later, (h later).1 hrun, hres⟩
  · rintro ⟨later, hrun, hres⟩
    exact ⟨later, (h later).2 hrun, hres⟩

/-- Skipping the whitespace in front of a cursor does not change what the loop
does from there. -/
theorem SameScan.dropWhile {F : Type} (strtof : List Char → F × Nat) (ops : FloatOps F)
    (cursor : List Char) :
    SameScan strtof ops (cursor.dropWhile is_whitespace) cursor := by
  cases cursor with
  | nil => exact SameScan.refl strtof ops _
  | cons c rest =>
    by_cases hws : is_whitespace c = true
    · intro result
      rw [tokenizeLoop_next_iff strtof ops c rest [] (rest.dropWhile is_whitespace)
        (whitespace_class c hws).1 (tokenizeStep_whitespace strtof ops c rest hws) result]
      simp only [List.dropWhile_cons, hws, if_true, List.nil_append]
      constructor
      · intro h; exact ⟨result, h, rfl⟩
      · rintro ⟨later, h, hres⟩
        rw [hres]; exact h
    · simp only [List.dropWhile_cons, hws]
      exact SameScan.refl strtof ops _

theorem SameScan.of_dropWhile_eq {F : Type} (strtof : List Char → F × Nat) (ops : FloatOps F)
    (cursor cursor' : List Char)
    (h : cursor.dropWhile is_whitespace = cursor'.dropWhile is_whitespace) :
    SameScan strtof ops cursor cursor' := by
  have h1 := SameScan.dropWhile strtof ops cursor
  have h2 := SameScan.dropWhile strtof ops cursor'
  rw [h] at h1
  exact h1.symm.trans h2

theorem tokenizeStep_suffix {F : Type} (strtof : List Char → F × Nat) (ops : FloatOps F)
    (c : Char) (rest : List Char) (emitted : List (Token F)) (cursor : List Char)
    (h : tokenizeStep strtof ops c rest = Scan.next emitted cursor) :
    cursor <:+ c :: rest := by
  unfold tokenizeStep at h
  split at h
  · injection h with _ hcur
    subst hcur
    exact List.drop_suffix _ _
  · split at h
    · injection h with _ hcur
      subst hcur; exact List.suffix_cons c rest
    · split at h
      · injection h with _ hcur
        subst hcur; exact List.suffix_cons c rest
      · split at h
        · injection h with _ hcur
          subst hcur
          exact List.dropWhile_suffix is_whitespace
        · cases h

/-- The cursor never moves left. -/
theorem scan_suffix {F : Type} (strtof : List Char → F × Nat) (ops : FloatOps F) :
    ∀ (n : Nat) (text : List Char) (tokens : List (Token F)) (final : List Char),
      scan strtof ops n text = some (tokens, final) → final <:+ text := by
  intro n
  induction n with
  | zero =>
    intro text tokens final h
    simp only [scan, Option.some.injEq, Prod.mk.injEq] at h
    obtain ⟨_, hfinal⟩ := h
    subst hfinal
    exact List.suffix_refl _
  | succ n ih =>
    intro text tokens final h
    obtain ⟨c, rest, emitted, cursor, later, htext, _, hstep, hrest, _⟩ :=
      scan_succ_inv strtof ops n text tokens final h
    subst htext
    exact (ih cursor later final hrest).trans (tokenizeStep_suffix strtof ops c rest _ _ hstep)

/-- Replacing the text `tail` that starts at a cursor the scan reaches by a
text `tail'` that differs from it only in its leading whitespace, in a way
`strtof` cannot see from the literals in front of it, does not change what
the loop does from any earlier cursor. -/
theorem scan_sameScan {F : Type} (strtof : List Char → F × Nat) (ops : FloatOps F)
    (hbound : StrtofWithinText strtof) (tail tail' : List Char)
    (hdrop : tail'.dropWhile is_whitespace = tail.dropWhile is_whitespace)
    (hstr : ∀ literal, literal ≠ [] → (strtof (literal ++ tail)).2 ≤ literal.length →
      strtof (literal ++ tail') = strtof (literal ++ tail)) :
    ∀ (n : Nat) (before : List Char) (tokens : List (Token F)),
      scan strtof ops n (before ++ tail) = some (tokens, tail) →
      SameScan strtof ops (before ++ tail') (before ++ tail) := by
  have hsame : SameScan strtof ops tail' tail := SameScan.of_dropWhile_eq strtof ops _ _ hdrop
  intro n
  induction n with
  | zero =>
    intro before tokens h
    simp only [scan, Option.some.injEq, Prod.mk.injEq, List.append_left_eq_self] at h
    rw [h.2]
    exact hsame
  | succ n ih =>
    intro before tokens h
    cases before with
    | nil => exact hsame
    | cons c before1 =>
      obtain ⟨c', rest, emitted, cursor, later, htext, hc, hstep, hrest, _⟩ :=
        scan_succ_inv strtof ops n _ tokens tail h
      simp only [List.cons_append, List.cons.injEq] at htext
      obtain ⟨hc', hrest'⟩ := htext
      subst hc' hrest'
      have hsuf := scan_suffix strtof ops n cursor later tail hrest
      show SameScan strtof ops (c :: (before1 ++ tail')) (c :: (before1 ++ tail))
      by_cases hf : is_start_of_float c = true
      · have hstep1 : tokenizeStep strtof ops c (before1 ++ tail) =
            Scan.next [valueToken c (strtof (c :: (before1 ++ tail))).1]
              ((c :: (before1 ++ tail)).drop (strtof (c :: (before1 ++ tail))).2) := by
          simp [tokenizeStep, hf]
        rw [hstep1] at hstep
        injection hstep with hem hcur
        have hk : (strtof (c :: before1 ++ tail)).2 ≤ (c :: before1).length := by
          have h1 := hsuf.length_le
          have h2 := hbound (c :: (before1 ++ tail))
          rw [← hcur] at h1
          simp only [List.length_drop, List.length_cons, List.length_append] at h1 h2
          simp only [List.cons_append, List.length_cons]
          omega
        have hcur' : cursor = (c :: before1).drop (strtof (c :: before1 ++ tail)).2 ++ tail := by
          rw [← hcur, ← List.cons_append]
          exact List.drop_append_of_le_length hk
        have hs := hstr (c :: before1) (by simp) hk
        have hstep2 : tokenizeStep strtof ops c (before1 ++ tail') =
            Scan.next emitted
              ((c :: before1).drop (strtof (c :: before1 ++ tail)).2 ++ tail') := by
          simp only [List.cons_append] at hs hk
          simp only [tokenizeStep, hf, if_true, hs, ← hem, List.cons_append]
          rw [← List.cons_append, ← List.cons_append,
            List.drop_append_of_le_length (by simpa using hk)]
        rw [hcur'] at hrest
        exact SameScan.step strtof ops c _ _ emitted _ _ hc hstep2
          (by rw [hstep1, hem, hcur, hcur']) (ih _ later hrest)
      · by_cases ho : is_start_of_operator c = true
        · have hst : ∀ rest, tokenizeStep strtof ops c rest
              = Scan.next [operatorToken ops c] rest := by
            intro rest; simp [tokenizeStep, hf, ho]
          rw [hst] at hstep
          injection hstep with _ hcur
          rw [← hcur] at hrest
          exact SameScan.step strtof ops c _ _ _ _ _ hc (hst _) (hst _) (ih _ later hrest)
        · by_cases hb : is_bracket c = true
          · have hst : ∀ rest, tokenizeStep strtof ops c rest
                = Scan.next [bracketToken ops c] rest := by
              intro rest; simp [tokenizeStep, hf, ho, hb]
            rw [hst] at hstep
            injection hstep with _ hcur
            rw [← hcur] at hrest
            exact SameScan.step strtof ops c _ _ _ _ _ hc (hst _) (hst _) (ih _ later hrest)
          · by_cases hw : is_whitespace c = true
            · rw [tokenizeStep_whitespace strtof ops c _ hw] at hstep
              injection hstep with _ hcur
              refine SameScan.step strtof ops c _ _ [] _ _ hc
                (tokenizeStep_whitespace strtof ops c _ hw)
                (tokenizeStep_whitespace strtof ops c _ hw) ?_
              rw [List.dropWhile_append, List.dropWhile_append]
              rw [List.dropWhile_append] at hcur
              cases hd : before1.dropWhile is_whitespace with
              | nil =>
                simp only [List.isEmpty_nil, if_true]
                rw [hdrop]
                exact SameScan.refl strtof ops _
              | cons x r =>
                simp only [List.isEmpty_cons, Bool.false_eq_true, if_false]
                rw [hd] at hcur
                simp only [List.isEmpty_cons, Bool.false_eq_true, if_false] at hcur
                rw [← hcur] at hrest
                exact ih _ later hrest
            · simp [tokenizeStep, hf, ho, hb, hw] at hstep

theorem whitespace_not_digit (c : Char) (h : is_whitespace c = true) : c.isDigit = false := by
  simp [is_whitespace] at h
  rcases h with rfl | rfl | rfl | rfl <;> decide

theorem takeWhile_append_stable (p : Char → Bool) :
    ∀ (front x y : List Char),
      (List.takeWhile p (front ++ x)).length ≤ front.length →
      (List.takeWhile p x = [] → List.takeWhile p y = []) →
      List.takeWhile p (front ++ y) = List.takeWhile p (front ++ x) := by
  intro front
  induction front with
  | nil =>
    intro x y hlen himp
    simp only [List.nil_append, List.length_nil, Nat.le_zero, List.length_eq_zero] at hlen ⊢
    rw [hlen, himp hlen]
  | cons head rest ih =>
    intro x y hlen himp
    by_cases hp : p head = true
    · simp only [List.cons_append, List.takeWhile_cons, hp, if_true, List.length_cons,
        Nat.add_le_add_iff_right] at hlen ⊢
      rw [ih x y hlen himp]
    · simp [List.takeWhile_cons, hp]

theorem strtofDigits_withinText : StrtofWithinText strtofDigits := by
  intro text
  exact (List.takeWhile_sublist Char.isDigit).length_le

theorem strtofDigits_stopsAtWhitespace : StrtofStopsAtWhitespace strtofDigits := by
  intro literal gap gap' rest _ _ hgap' himp hk
  have hstable := takeWhile_append_stable Char.isDigit literal (gap ++ rest) (gap' ++ rest)
    (by simpa [strtofDigits, List.append_assoc] using hk)
    (by
      intro hnil
      cases gap' with
      | nil =>
        cases gap with
        | nil => exact hnil
        | cons c g => exact absurd rfl (himp (by simp))
      | cons c g =>
        have hc := whitespace_not_digit c (hgap' c (List.mem_cons_self c g))
        simp [List.takeWhile_cons, hc])
  simp only [strtofDigits, List.append_assoc, hstable]

/-- C9: whitespace is insignificant.  Let the scan of a text reach, after some
iterations, a cursor followed by a (possibly empty) run of whitespace
`gap ++ gap'`: the start of the text, the end of a token or the end of the
text.  Inserting any run `inserted` of space, tab, newline and carriage-return
characters inside that run leaves the result of `tokenize` (kinds, symbols
and values of the tokens, and what is printed) unchanged, and hence the result
of `evaluate_expression`.  `strtof` is assumed to stay inside the text and
never to read a literal across whitespace.  `1+1` and ` 1 + 1 ` both give 2. -/
theorem tokenize_whitespace_insignificant {F : Type} (strtof : List Char → F × Nat)
    (ops : FloatOps F) (hbound : StrtofWithinText strtof)
    (hstop : StrtofStopsAtWhitespace strtof) (n : Nat)
    (before gap gap' after inserted : List Char) (tokens : List (Token F))
    (hgap : ∀ c ∈ gap, is_whitespace c = true) (hgap' : ∀ c ∈ gap', is_whitespace c = true)
    (hins : ∀ c ∈ inserted, is_whitespace c = true)
    (hscan : scan strtof ops n (before ++ (gap ++ gap' ++ after))
      = some (tokens, gap ++ gap' ++ after)) :
    tokenize strtof ops (before ++ (gap ++ inserted ++ gap' ++ after))
      = tokenize strtof ops (before ++ (gap ++ gap' ++ after)) ∧
    evaluate_expression strtof ops (before ++ (gap ++ inserted ++ gap' ++ after))
      = evaluate_expression strtof ops (before ++ (gap ++ gap' ++ after)) ∧
    evaluate_expression strtofDigits intOps " 1 + 1 ".toList
      = evaluate_expression strtofDigits intOps "1+1".toList := by
  have hold : ∀ c ∈ gap ++ gap', is_whitespace c = true := by
    intro c hc
    rcases List.mem_append.1 hc with h | h
    · exact hgap c h
    · exact hgap' c h
  have hnew : ∀ c ∈ gap ++ inserted ++ gap', is_whitespace c = true := by
    intro c hc
    rcases List.mem_append.1 hc with h | h
    · rcases List.mem_append.1 h with h | h
      · exact hgap c h
      · exact hins c h
    · exact hgap' c h
  have hsame := scan_sameScan strtof ops hbound (gap ++ gap' ++ after)
    (gap ++ inserted ++ gap' ++ after)
    (by rw [dropWhile_whitespace_append _ _ hnew, dropWhile_whitespace_append _ _ hold])
    (by
      intro literal hne hk
      have h := hstop literal (gap ++ gap') (gap ++ inserted ++ gap') after hne hold hnew
        (by
          intro h1 h2
          apply h1
          simp only [List.append_eq_nil] at h2 ⊢
          exact ⟨h2.1.1, h2.2⟩)
        (by simpa only [List.append_assoc] using hk)
      simpa only [List.append_assoc] using h)
    n before tokens hscan
  have htok := tokenize_eq_of_sameScan strtof ops _ _ hsame
  refine ⟨htok, ?_, by decide⟩
  simp only [evaluate_expression, htok]

theorem tokenize_whitespace_insignificant_witness :
    tokenize strtofDigits intOps ("1".toList ++ ([] ++ " \t".toList ++ [] ++ "+1".toList))
      = tokenize strtofDigits intOps ("1".toList ++ ([] ++ [] ++ "+1".toList)) ∧
    evaluate_expression strtofDigits intOps
        ("1".toList ++ ([] ++ " \t".toList ++ [] ++ "+1".toList))
      = evaluate_expression strtofDigits intOps ("1".toList ++ ([] ++ [] ++ "+1".toList)) ∧
    evaluate_expression strtofDigits intOps " 1 + 1 ".toList
      = evaluate_expression strtofDigits intOps "1+1".toList :=
  tokenize_whitespace_insignificant strtofDigits intOps strtofDigits_withinText
    strtofDigits_stopsAtWhitespace 1 "1".toList [] [] "+1".toList " \t".toList
    [valueToken '1' 1] (by decide) (by decide) (by decide) (by decide)

/-- The tokens written by `tokenize` satisfy `wellFormed`. -/
theorem tokenizeLoop_wellFormed {F : Type} (strtof : List Char → F × Nat) (ops : FloatOps F) :
    ∀ (fuel : Nat) (cursor : List Char) (result : List (Token F) × List Message),
      tokenizeLoop strtof ops fuel cursor = some result →
      ∀ token ∈ result.1, wellFormed token = true := by
  intro fuel
  induction fuel with
  | zero => intro cursor result h; simp [tokenizeLoop] at h
  | succ fuel ih =>
    intro cursor result h
    cases cursor with
    | nil =>
      simp only [tokenizeLoop, Option.some.injEq] at h
      subst h; simp
    | cons c rest =>
      by_cases hc : c = NUL
      · simp only [tokenizeLoop, hc, if_true, Option.some.injEq] at h
        subst h; simp
      · rw [tokenizeLoop_cons strtof ops fuel c rest hc] at h
        cases hstep : tokenizeStep strtof ops c rest with
        | invalid bad =>
          simp only [hstep, Option.some.injEq] at h
          subst h; simp
        | next emitted cursor =>
          simp only [hstep] at h
          cases hlater : tokenizeLoop strtof ops fuel cursor with
          | none => simp [hlater] at h
          | some later =>
            simp only [hlater, Option.some.injEq] at h
            subst h
            intro token ht
            rcases List.mem_append.1 ht with ht | ht
            · unfold tokenizeStep at hstep
              split at hstep
              · injection hstep with hem _
                subst hem
                simp only [List.mem_singleton] at ht
                subst ht; rfl
              · split at hstep
                · rename_i ho
                  injection hstep with hem _
                  subst hem
                  simp only [List.mem_singleton] at ht
                  subst ht
                  simpa [wellFormed, operatorToken] using ho
                · split at hstep
                  · rename_i hb
                    injection hstep with hem _
                    subst hem
                    simp only [List.mem_singleton] at ht
                    subst ht
                    simp only [is_bracket, Bool.or_eq_true, decide_eq_true_eq] at hb
                    rcases hb with rfl | rfl <;> rfl
                  · split at hstep
                    · injection hstep with hem _
                      subst hem
                      simp at ht
                    · cases hstep
            · exact ih cursor later hlater token ht

theorem tokenize_wellFormed {F : Type} (strtof : List Char → F × Nat) (ops : FloatOps F)
    (input_buffer : List Char) (result : List (Token F) × List Message)
    (h : tokenize strtof ops input_buffer = some result) :
    ∀ token ∈ result.1, wellFormed token = true :=
  tokenizeLoop_wellFormed strtof ops _ input_buffer result h

/-! ## The end of the evaluation and the order of operands -/

/-- C11: when the evaluation loop ends without "not enough values", a value
stack holding exactly one token makes `evaluate` return that token's number
and print nothing, and a value stack holding more than one token makes it
print "Something went wrong! Expected 1 value ..." with the count and return
0, none of the values left over; `1 2` does the latter. -/
theorem evaluate_finish {F : Type} (ops : FloatOps F) (tokens rpn : List (Token F))
    (value_stack : TokenStack F) (hpost : toPostfix tokens = some rpn)
    (hrun : evaluateLoop ops rpn [] = Except.ok value_stack) :
    (∀ token, value_stack = [token] → evaluate ops tokens = ⟨token.value, []⟩) ∧
    (1 < value_stack.length →
      evaluate ops tokens
        = ⟨ops.zero, [Message.unexpectedStackCount value_stack.length]⟩) ∧
    evaluate_expression strtofDigits intOps "1 2".toList
      = some ⟨0, [Message.unexpectedStackCount 2]⟩ := by
  refine ⟨?_, ?_, by decide⟩
  · intro token hstack
    subst hstack
    simp [evaluate, hpost, hrun, finish, pop]
  · intro hlen
    simp [evaluate, hpost, hrun, finish, hlen]

theorem evaluate_finish_witness :
    (∀ token, [resultToken (3 : Int)] = [token] →
      evaluate intOps [valueToken '1' 1, operatorToken intOps '+', valueToken '2' 2]
        = ⟨token.value, []⟩) ∧
    (1 < [resultToken (3 : Int)].length →
      evaluate intOps [valueToken '1' 1, operatorToken intOps '+', valueToken '2' 2]
        = ⟨intOps.zero, [Message.unexpectedStackCount [resultToken (3 : Int)].length]⟩) ∧
    evaluate_expression strtofDigits intOps "1 2".toList
      = some ⟨0, [Message.unexpectedStackCount 2]⟩ :=
  evaluate_finish intOps [valueToken '1' 1, operatorToken intOps '+', valueToken '2' 2]
    [valueToken '1' 1, valueToken '2' 2, operatorToken intOps '+'] [resultToken 3]
    (by decide) rfl

/-- C12 (code defect): on `a - b - c` the conversion of `evaluate` gives the
postfix sequence `a b c - -`, the reference converter of the specification
gives `a b - c -`: the code leaves the first `-` on the stack when the second
arrives. -/
theorem toPostfix_differs_from_reference {F : Type} (ops : FloatOps F) (a b c : F)
    (pa pb pc : Char) :
    toPostfix [valueToken pa a, operatorToken ops '-', valueToken pb b,
        operatorToken ops '-', valueToken pc c]
      = some [valueToken pa a, valueToken pb b, valueToken pc c, operatorToken ops '-',
          operatorToken ops '-'] ∧
    referencePostfix [valueToken pa a, operatorToken ops '-', valueToken pb b,
        operatorToken ops '-', valueToken pc c]
      = some [valueToken pa a, valueToken pb b, operatorToken ops '-', valueToken pc c,
          operatorToken ops '-'] ∧
    toPostfix [valueToken '1' (10 : Int), operatorToken intOps '-', valueToken '2' 2,
        operatorToken intOps '-', valueToken '3' 3]
      ≠ referencePostfix [valueToken '1' (10 : Int), operatorToken intOps '-',
        valueToken '2' 2, operatorToken intOps '-', valueToken '3' 3] := by
  refine ⟨rfl, rfl, by decide⟩

/-- C13: in the evaluation loop the first value popped is the right operand
and the second the left one.  With `+` and `*` commutative (as they are for
`float`), for all values `a`, `b` the postfix sequence `a b op` evaluates to
`a + b`, `a - b`, `a * b`, `a / b` and `powf(a, b)` for `op` = `+`, `-`, `*`,
`/`, `^`. -/
theorem evaluateLoop_operand_order {F : Type} (ops : FloatOps F)
    (hadd : ∀ x y, ops.add x y = ops.add y x) (hmul : ∀ x y, ops.mul x y = ops.mul y x)
    (a b : F) (pa pb : Char) :
    (∀ op lvalue rvalue, applyOperator ops op lvalue rvalue = binop ops op rvalue lvalue) ∧
    (∀ op, evaluateLoop ops [valueToken pa a, valueToken pb b, operatorToken ops op] []
      = Except.ok [resultToken (binop ops op a b)]) ∧
    finish ops [resultToken (binop ops '+' a b)] = ⟨ops.add a b, []⟩ ∧
    finish ops [resultToken (binop ops '-' a b)] = ⟨ops.sub a b, []⟩ ∧
    finish ops [resultToken (binop ops '*' a b)] = ⟨ops.mul a b, []⟩ ∧
    finish ops [resultToken (binop ops '/' a b)] = ⟨ops.div a b, []⟩ ∧
    finish ops [resultToken (binop ops '^' a b)] = ⟨ops.powf a b, []⟩ := by
  refine ⟨fun op lvalue rvalue => applyOperator_eq_binop ops hadd hmul op rvalue lvalue,
    ?_, rfl, rfl, rfl, rfl, rfl⟩
  intro op
  simp [evaluateLoop, valueToken, operatorToken, push, applyOperator_eq_binop ops hadd hmul]

theorem evaluateLoop_operand_order_witness :
    (∀ op lvalue rvalue,
      applyOperator intOps op lvalue rvalue = binop intOps op rvalue lvalue) ∧
    (∀ op, evaluateLoop intOps [valueToken '7' 7, valueToken '2' 2, operatorToken intOps op] []
      = Except.ok [resultToken (binop intOps op 7 2)]) ∧
    finish intOps [resultToken (binop intOps '+' 7 2)] = ⟨intOps.add 7 2, []⟩ ∧
    finish intOps [resultToken (binop intOps '-' 7 2)] = ⟨intOps.sub 7 2, []⟩ ∧
    finish intOps [resultToken (binop intOps '*' 7 2)] = ⟨intOps.mul 7 2, []⟩ ∧
    finish intOps [resultToken (binop intOps '/' 7 2)] = ⟨intOps.div 7 2, []⟩ ∧
    finish intOps [resultToken (binop intOps '^' 7 2)] = ⟨intOps.powf 7 2, []⟩ :=
  evaluateLoop_operand_order intOps (fun x y => Int.add_comm x y)
    (fun x y => Int.mul_comm x y) 7 2 '7' '2'

/-- C20: two adjacent operators of equal precedence.  With `+` and `*`
commutative, for all values `a`, `b`, `c` and operator symbols `op1`, `op2`
of equal precedence, the token sequence `a op1 b op2 c` is converted to the
postfix sequence `a b c op2 op1` and evaluates to `a op1 (b op2 c)`;
`10 - 2 - 3` evaluates to 11. -/
theorem evaluate_equal_precedence {F : Type} (ops : FloatOps F)
    (hadd : ∀ x y, ops.add x y = ops.add y x) (hmul : ∀ x y, ops.mul x y = ops.mul y x)
    (op1 op2 : Char)
    (hprec : get_operator_precedence op1 = get_operator_precedence op2)
    (a b c : F) (pa pb pc : Char) :
    toPostfix [valueToken pa a, operatorToken ops op1, valueToken pb b,
        operatorToken ops op2, valueToken pc c]
      = some [valueToken pa a, valueToken pb b, valueToken pc c, operatorToken ops op2,
          operatorToken ops op1] ∧
    evaluate ops [valueToken pa a, operatorToken ops op1, valueToken pb b,
        operatorToken ops op2, valueToken pc c]
      = ⟨binop ops op1 a (binop ops op2 b c), []⟩ ∧
    evaluate_expression strtofDigits intOps "10 - 2 - 3".toList = some ⟨11, []⟩ := by
  have hlt : ¬ get_operator_precedence op2 < get_operator_precedence op1 := by omega
  have hpost : toPostfix [valueToken pa a, operatorToken ops op1, valueToken pb b,
        operatorToken ops op2, valueToken pc c]
      = some [valueToken pa a, valueToken pb b, valueToken pc c, operatorToken ops op2,
          operatorToken ops op1] := by
    simp [toPostfix, convertLoop, operatorBranch, moveRemaining, push, valueToken,
      operatorToken, hlt]
  refine ⟨hpost, ?_, by decide⟩
  unfold evaluate
  rw [hpost]
  simp [evaluateLoop, finish, pop, push, valueToken, operatorToken,
    resultToken, applyOperator_eq_binop ops hadd hmul]

theorem evaluate_equal_precedence_witness :
    toPostfix [valueToken '1' (10 : Int), operatorToken intOps '-', valueToken '2' 2,
        operatorToken intOps '+', valueToken '3' 3]
      = some [valueToken '1' 10, valueToken '2' 2, valueToken '3' 3, operatorToken intOps '+',
          operatorToken intOps '-'] ∧
    evaluate intOps [valueToken '1' 10, operatorToken intOps '-', valueToken '2' 2,
        operatorToken intOps '+', valueToken '3' 3]
      = ⟨binop intOps '-' 10 (binop intOps '+' 2 3), []⟩ ∧
    evaluate_expression strtofDigits intOps "10 - 2 - 3".toList = some ⟨11, []⟩ :=
  evaluate_equal_precedence intOps (fun x y => Int.add_comm x y)
    (fun x y => Int.mul_comm x y) '-' '+' (by decide) 10 2 3 '1' '2' '3'

/-! ## Numeric literals -/

/-- C15 (code defect): on the text `.` the tokenizer never ends.  `strtof`
performs no conversion there (value 0, no character consumed), so an
iteration writes a `VALUE` token and leaves the cursor on the `.`: after `n`
iterations `n` tokens are written from one character, and no number of
iterations ends the loop. -/
theorem tokenize_lone_dot_never_ends :
    strtofDigits ['.'] = (0, 0) ∧
    tokenizeStep strtofDigits intOps '.' [] = Scan.next [valueToken '.' 0] ['.'] ∧
    (∀ n, scan strtofDigits intOps n ['.']
      = some (List.replicate n (valueToken '.' 0), ['.'])) ∧
    (∀ fuel, tokenizeLoop strtofDigits intOps fuel ['.'] = none) ∧
    tokenize strtofDigits intOps ".".toList = none ∧
    evaluate_expression strtofDigits intOps ".".toList = none := by
  have hstep : tokenizeStep strtofDigits intOps '.' []
      = Scan.next [valueToken '.' 0] ['.'] := rfl
  have hnul : '.' ≠ NUL := by decide
  refine ⟨rfl, hstep, ?_, tokenizeLoop_stuck strtofDigits intOps '.' [] _ hnul hstep,
    by decide, by decide⟩
  intro n
  induction n with
  | zero => rfl
  | succ n ih =>
    rw [scan_cons strtofDigits intOps n '.' [] hnul, hstep]
    simp only [ih, List.replicate_succ, List.singleton_append]

/-- The only line `tokenize` prints is the one for an invalid character. -/
theorem tokenizeLoop_printed {F : Type} (strtof : List Char → F × Nat) (ops : FloatOps F) :
    ∀ (fuel : Nat) (cursor : List Char) (result : List (Token F) × List Message),
      tokenizeLoop strtof ops fuel cursor = some result →
      result.2 = [] ∨
        ∃ bad, unrecognized bad = true ∧ result.2 = [Message.invalidCharacter bad] := by
  intro fuel
  induction fuel with
  | zero => intro cursor result h; simp [tokenizeLoop] at h
  | succ fuel ih =>
    intro cursor result h
    cases cursor with
    | nil =>
      simp only [tokenizeLoop, Option.some.injEq] at h
      subst h; exact Or.inl rfl
    | cons c rest =>
      by_cases hc : c = NUL
      · simp only [tokenizeLoop, hc, if_true, Option.some.injEq] at h
        subst h; exact Or.inl rfl
      · rw [tokenizeLoop_cons strtof ops fuel c rest hc] at h
        cases hstep : tokenizeStep strtof ops c rest with
        | invalid bad =>
          simp only [hstep, Option.some.injEq] at h
          subst h
          right
          refine ⟨bad, ?_, rfl⟩
          unfold tokenizeStep at hstep
          split at hstep
          · cases hstep
          · split at hstep
            · cases hstep
            · split at hstep
              · cases hstep
              · split at hstep
                · cases hstep
                · rename_i hf ho hb hw
                  injection hstep with hbad
                  subst hbad
                  simp [unrecognized, hc, hf, ho, hb, hw]
        | next emitted cursor =>
          simp only [hstep] at h
          cases hlater : tokenizeLoop strtof ops fuel cursor with
          | none => simp [hlater] at h
          | some later =>
            simp only [hlater, Option.some.injEq] at h
            subst h
            exact ih cursor later hlater

/-- C16 (code defect): in `.+` the `.` is classified as the start of a number
but no digit follows it, so `strtof` finds no literal (value 0, no character
consumed).  `tokenize` does not reject it: the first iteration prints nothing
and writes a `VALUE` token, of value 0, for that position, the cursor stays on
the `.`, and the loop never ends, so `tokenize` never returns an error
either. -/
theorem tokenize_dot_writes_value :
    is_start_of_float '.' = true ∧
    strtofDigits ".+".toList = (0, 0) ∧
    scan strtofDigits intOps 1 ".+".toList
      = some ([valueToken '.' 0], ".+".toList) ∧
    (∀ fuel, tokenizeLoop strtofDigits intOps fuel ".+".toList = none) ∧
    tokenize strtofDigits intOps ".+".toList = none := by
  have hnul : '.' ≠ NUL := by decide
  have hstep : tokenizeStep strtofDigits intOps '.' ['+']
      = Scan.next [valueToken '.' 0] ['.', '+'] := rfl
  exact ⟨by decide, by decide, by decide,
    tokenizeLoop_stuck strtofDigits intOps '.' ['+'] _ hnul hstep, by decide⟩

/-! ## Tokens before an invalid character -/

theorem unrecognized_class (c : Char) (h : unrecognized c = true) :
    c ≠ NUL ∧ is_start_of_float c = false ∧ is_start_of_operator c = false ∧
      is_bracket c = false ∧ is_whitespace c = false := by
  simp only [unrecognized, Bool.and_eq_true, Bool.not_eq_true', decide_eq_true_eq] at h
  obtain ⟨⟨⟨⟨hnul, hf⟩, ho⟩, hb⟩, hw⟩ := h
  exact ⟨hnul, hf, ho, hb, hw⟩

/-- When the scan of a text reaches a cursor `tail` that starts with a
character other than whitespace, the same iterations scan the part of the
text in front of it to its end and write the same tokens, provided `strtof`
stays inside the text and reads nothing beyond the literal it returns. -/
theorem scan_front {F : Type} (strtof : List Char → F × Nat) (ops : FloatOps F)
    (hbound : StrtofWithinText strtof) (hlocal : StrtofReadsLiteralOnly strtof)
    (c : Char) (rest : List Char) (hc : unrecognized c = true) :
    ∀ (n : Nat) (before : List Char) (tokens : List (Token F)),
      scan strtof ops n (before ++ c :: rest) = some (tokens, c :: rest) →
      scan strtof ops n before = some (tokens, []) := by
  obtain ⟨hnul, hcf, hco, hcb, hcw⟩ := unrecognized_class c hc
  have htail : (c :: rest).dropWhile is_whitespace = c :: rest := by
    simp [List.dropWhile_cons, hcw]
  intro n
  induction n with
  | zero =>
    intro before tokens h
    simp only [scan, Option.some.injEq, Prod.mk.injEq, List.append_left_eq_self] at h
    obtain ⟨h1, h2⟩ := h
    subst h1 h2
    rfl
  | succ n ih =>
    intro before tokens h
    obtain ⟨c', rest', emitted, cursor, later, htext, hc', hstep, hrest, htok⟩ :=
      scan_succ_inv strtof ops n _ tokens (c :: rest) h
    cases before with
    | nil =>
      simp only [List.nil_append, List.cons.injEq] at htext
      obtain ⟨h1, h2⟩ := htext
      subst h1 h2
      simp [tokenizeStep, hcf, hco, hcb, hcw] at hstep
    | cons c0 before1 =>
      simp only [List.cons_append, List.cons.injEq] at htext
      obtain ⟨h1, h2⟩ := htext
      subst h1 h2
      have hsuf := scan_suffix strtof ops n cursor later (c :: rest) hrest
      rw [scan_cons strtof ops n c0 before1 hc']
      by_cases hf : is_start_of_float c0 = true
      · have hstep1 : tokenizeStep strtof ops c0 (before1 ++ c :: rest) =
            Scan.next [valueToken c0 (strtof (c0 :: (before1 ++ c :: rest))).1]
              ((c0 :: (before1 ++ c :: rest)).drop
                (strtof (c0 :: (before1 ++ c :: rest))).2) := by
          simp [tokenizeStep, hf]
        rw [hstep1] at hstep
        injection hstep with hem hcur
        have hk : (strtof (c0 :: before1 ++ c :: rest)).2 ≤ (c0 :: before1).length := by
          have h1 := hsuf.length_le
          have h2 := hbound (c0 :: (before1 ++ c :: rest))
          rw [← hcur] at h1
          simp only [List.length_drop, List.length_cons, List.length_append] at h1 h2
          simp only [List.cons_append, List.length_cons]
          omega
        have hs := hlocal (c0 :: before1) (c :: rest) hk
        have hcur' : cursor
            = (c0 :: before1).drop (strtof (c0 :: before1 ++ c :: rest)).2 ++ c :: rest := by
          rw [← hcur, ← List.cons_append]
          exact List.drop_append_of_le_length hk
        rw [hcur'] at hrest
        have hfront := ih _ later hrest
        have hstep2 : tokenizeStep strtof ops c0 before1 =
            Scan.next emitted
              ((c0 :: before1).drop (strtof (c0 :: before1 ++ c :: rest)).2) := by
          simp only [List.cons_append] at hs
          simp only [tokenizeStep, hf, if_true, hs, ← hem, List.cons_append]
        rw [hstep2]
        simp only [hfront, htok]
      · by_cases ho : is_start_of_operator c0 = true
        · have hst : ∀ text, tokenizeStep strtof ops c0 text
              = Scan.next [operatorToken ops c0] text := by
            intro text; simp [tokenizeStep, hf, ho]
          rw [hst] at hstep
          injection hstep with hem hcur
          rw [← hcur] at hrest
          rw [hst]
          simp only [ih _ later hrest, htok, hem]
        · by_cases hb : is_bracket c0 = true
          · have hst : ∀ text, tokenizeStep strtof ops c0 text
                = Scan.next [bracketToken ops c0] text := by
              intro text; simp [tokenizeStep, hf, ho, hb]
            rw [hst] at hstep
            injection hstep with hem hcur
            rw [← hcur] at hrest
            rw [hst]
            simp only [ih _ later hrest, htok, hem]
          · by_cases hw : is_whitespace c0 = true
            · rw [tokenizeStep_whitespace strtof ops c0 _ hw] at hstep
              injection hstep with hem hcur
              rw [tokenizeStep_whitespace strtof ops c0 _ hw]
              rw [List.dropWhile_append, htail] at hcur
              cases hd : before1.dropWhile is_whitespace with
              | nil =>
                rw [hd] at hcur
                simp only [List.isEmpty_nil, if_true] at hcur
                rw [← hcur] at hrest
                have hfront := ih [] later (by simpa using hrest)
                simp only [hfront, htok, hem]
              | cons x r =>
                rw [hd] at hcur
                simp only [List.isEmpty_cons, Bool.false_eq_true, if_false] at hcur
                rw [← hcur] at hrest
                simp only [ih _ later hrest, htok, hem]
            · simp [tokenizeStep, hf, ho, hb, hw] at hstep

theorem strtofDigits_readsLiteralOnly : StrtofReadsLiteralOnly strtofDigits := by
  intro front rest hk
  have hstable := takeWhile_append_stable Char.isDigit front rest []
    (by simpa [strtofDigits] using hk) (fun _ => rfl)
  simp only [List.append_nil] at hstable
  simp only [strtofDigits, hstable]

/-- C14 (as amended): when the scan of a text reaches an invalid character at
position `k` (the text is `before ++ c :: rest` and the cursor arrives at
`c`), `tokenize` stops there: it returns exactly the tokens written before
position `k`, in order, and prints the invalid-character line for `c`; no
token comes from a character at or after position `k`.  With a `strtof` that
stays inside the text and reads nothing beyond the literal it returns, these
are the tokens that tokenizing the part of the text before position `k`
produces. -/
theorem tokenize_partial_result {F : Type} (strtof : List Char → F × Nat) (ops : FloatOps F)
    (hbound : StrtofWithinText strtof) (hlocal : StrtofReadsLiteralOnly strtof)
    (n : Nat) (before : List Char) (c : Char) (rest : List Char) (tokens : List (Token F))
    (hscan : scan strtof ops n (before ++ c :: rest) = some (tokens, c :: rest))
    (hc : unrecognized c = true) :
    tokenize strtof ops (before ++ c :: rest)
      = some (tokens, [Message.invalidCharacter c]) ∧
    tokenize strtof ops before = some (tokens, []) := by
  constructor
  · have hloop := tokenizeLoop_of_scan strtof ops n _ tokens (c :: rest) 1 _ hscan
      (tokenizeLoop_unrecognized strtof ops c rest hc)
    simpa using tokenize_of_tokenizeLoop strtof ops _ _ _ hloop
  · have hfront := scan_front strtof ops hbound hlocal c rest hc n before tokens hscan
    have hloop := tokenizeLoop_of_scan strtof ops n before tokens [] 1 ([], []) hfront rfl
    simpa using tokenize_of_tokenizeLoop strtof ops _ _ _ hloop

theorem tokenize_partial_result_witness :
    tokenize strtofDigits intOps ("12+3 ".toList ++ '#' :: "4".toList)
      = some ([valueToken '1' 12, operatorToken intOps '+', valueToken '3' 3],
          [Message.invalidCharacter '#']) ∧
    tokenize strtofDigits intOps "12+3 ".toList
      = some ([valueToken '1' 12, operatorToken intOps '+', valueToken '3' 3], []) :=
  tokenize_partial_result strtofDigits intOps strtofDigits_withinText
    strtofDigits_readsLiteralOnly 4 "12+3 ".toList '#' "4".toList
    [valueToken '1' 12, operatorToken intOps '+', valueToken '3' 3] (by decide) (by decide)

/-- C14 (counterexample): in `1e2` the first character that is not a digit,
`.`, an operator, a bracket or whitespace is `e`, at position 1.  `strtof`
reads `1e2` as one literal, so `tokenize` does not stop at position 1: it
prints nothing and returns one token of value 100, where tokenizing the part
`1` in front of position 1 gives a token of value 1. -/
theorem tokenize_exponent_not_rejected :
    unrecognized 'e' = true ∧
    strtofExponent "1e2".toList = (100, 3) ∧
    tokenize strtofExponent intOps "1e2".toList = some ([valueToken '1' 100], []) ∧
    tokenize strtofExponent intOps "1".toList = some ([valueToken '1' 1], []) := by
  decide

/-! ## The operator stack and the size of the stacks -/

theorem convertLoop_append {F : Type} :
    ∀ (first second : List (Token F)) (operators output : TokenStack F),
      convertLoop (first ++ second) operators output =
        match convertLoop first operators output with
        | none => none
        | some state => convertLoop second state.1 state.2 := by
  intro first
  induction first with
  | nil => intro second operators output; rfl
  | cons head rest ih =>
    intro second operators output
    rw [List.cons_append, convertLoop_cons, convertLoop_cons]
    cases head.kind with
    | VALUE => exact ih _ _ _
    | OPERATOR => exact ih _ _ _
    | LEFT_BRACKET => exact ih _ _ _
    | RIGHT_BRACKET =>
      simp only
      cases rightBracketBranch operators output with
      | none => rfl
      | some next => exact ih _ _ _

/-- The conversion loop only ever stores `OPERATOR` and `LEFT_BRACKET` tokens
on the operator stack. -/
theorem convertLoop_stack_kinds {F : Type} :
    ∀ (tokens : List (Token F)) (operators output operators' output' : TokenStack F),
      convertLoop tokens operators output = some (operators', output') →
      (∀ token ∈ operators,
        token.kind = TokenKind.OPERATOR ∨ token.kind = TokenKind.LEFT_BRACKET) →
      ∀ token ∈ operators',
        token.kind = TokenKind.OPERATOR ∨ token.kind = TokenKind.LEFT_BRACKET := by
  intro tokens
  induction tokens with
  | nil =>
    intro operators output operators' output' h hinv
    simp only [convertLoop, Option.some.injEq, Prod.mk.injEq] at h
    rw [← h.1]
    exact hinv
  | cons head rest ih =>
    intro operators output operators' output' h hinv
    rw [convertLoop_cons] at h
    cases hk : head.kind with
    | VALUE =>
      simp only [hk] at h
      exact ih _ _ _ _ h hinv
    | OPERATOR =>
      simp only [hk] at h
      obtain ⟨moved, remaining, hsplit, hbranch, _⟩ := operatorBranch_spec head operators output
      rw [hbranch] at h
      apply ih _ _ _ _ h
      intro token ht
      rcases List.mem_cons.1 ht with rfl | ht
      · exact Or.inl hk
      · exact hinv token (by rw [hsplit]; exact List.mem_append_right _ ht)
    | LEFT_BRACKET =>
      simp only [hk] at h
      apply ih _ _ _ _ h
      intro token ht
      rcases List.mem_cons.1 ht with rfl | ht
      · exact Or.inr hk
      · exact hinv token ht
    | RIGHT_BRACKET =>
      simp only [hk] at h
      cases hb : rightBracketBranch operators output with
      | none => simp [hb] at h
      | some next =>
        obtain ⟨remaining, output''⟩ := next
        simp only [hb] at h
        obtain ⟨moved, bracket, hsplit, _, _, _⟩ := rightBracketBranch_some _ _ _ _ hb
        apply ih _ _ _ _ h
        intro token ht
        exact hinv token (by rw [hsplit]; simp [ht])

theorem drainOperators_eq {F : Type} :
    ∀ (operators output : TokenStack F),
      drainOperators operators output = ([], operators.reverse ++ output) := by
  intro operators
  induction operators with
  | nil => intro output; rfl
  | cons head rest ih =>
    intro output
    simp [drainOperators, push, ih]

/-- C17: the operator stack is empty when the conversion starts; after any
number `n` of tokens it holds only `OPERATOR` and `LEFT_BRACKET` tokens; the
final loop leaves it empty, having moved its entries to the output in pop
order (top of the stack first), which gives the postfix sequence when the
`n` tokens were the whole input. -/
theorem convertLoop_operator_stack {F : Type} (tokens : List (Token F)) (n : Nat)
    (operators output : TokenStack F)
    (h : convertLoop (tokens.take n) [] [] = some (operators, output)) :
    convertLoop ([] : List (Token F)) [] [] = some ([], []) ∧
    (∀ token ∈ operators,
      token.kind = TokenKind.OPERATOR ∨ token.kind = TokenKind.LEFT_BRACKET) ∧
    drainOperators operators output = ([], operators.reverse ++ output) ∧
    moveRemaining operators output = (drainOperators operators output).2 ∧
    (tokens.length ≤ n → toPostfix tokens = some (output.reverse ++ operators)) := by
  refine ⟨rfl, convertLoop_stack_kinds _ [] [] operators output h (by simp),
    drainOperators_eq operators output, ?_, ?_⟩
  · rw [drainOperators_eq, moveRemaining_eq]
  · intro hn
    rw [List.take_of_length_le hn] at h
    rw [toPostfix_eq, h]

theorem convertLoop_operator_stack_witness :
    convertLoop ([] : List (Token Int)) [] [] = some ([], []) ∧
    (∀ token ∈ [operatorToken intOps '+', bracketToken intOps '('],
      token.kind = TokenKind.OPERATOR ∨ token.kind = TokenKind.LEFT_BRACKET) ∧
    drainOperators [operatorToken intOps '+', bracketToken intOps '('] [valueToken '1' 1]
      = ([], [operatorToken intOps '+', bracketToken intOps '('].reverse
          ++ [valueToken '1' 1]) ∧
    moveRemaining [operatorToken intOps '+', bracketToken intOps '('] [valueToken '1' 1]
      = (drainOperators [operatorToken intOps '+', bracketToken intOps '(']
          [valueToken '1' 1]).2 ∧
    ([bracketToken intOps '(', valueToken '1' 1, operatorToken intOps '+'].length ≤ 3 →
      toPostfix [bracketToken intOps '(', valueToken '1' 1, operatorToken intOps '+']
        = some ([valueToken '1' 1].reverse
            ++ [operatorToken intOps '+', bracketToken intOps '('])) :=
  convertLoop_operator_stack
    [bracketToken intOps '(', valueToken '1' 1, operatorToken intOps '+'] 3
    [operatorToken intOps '+', bracketToken intOps '('] [valueToken '1' 1] (by decide)

/-- C18: for a token array of at most `MAX_TOKENS` tokens, after any number of
tokens the operator stack and the output together hold at most as many
entries as tokens were read; the inner loops of the conversion move entries
from one stack to the other or drop one, so they never raise that total;
the postfix sequence is no longer than the input; and after any number of
postfix tokens the value stack holds at most as many entries as tokens were
read.  All counts stay within `MAX_TOKENS`, so a `push`, which writes at the
index given by the count before it, writes below `MAX_TOKENS`. -/
theorem stack_bounds {F : Type} (ops : FloatOps F) (tokens : List (Token F))
    (hcount : tokens.length ≤ MAX_TOKENS) :
    (∀ n operators output, convertLoop (tokens.take n) [] [] = some (operators, output) →
      operators.length + output.length ≤ (tokens.take n).length ∧
      operators.length + output.length ≤ MAX_TOKENS) ∧
    (∀ precedence (operators output : TokenStack F),
      (moveHigherOrEqual precedence operators output).1.length
        + (moveHigherOrEqual precedence operators output).2.length
        = operators.length + output.length) ∧
    (∀ (operators output : TokenStack F) next,
      rightBracketBranch operators output = some next →
      next.1.length + next.2.length + 1 = operators.length + output.length) ∧
    (∀ operators output : TokenStack F,
      (drainOperators operators output).2.length = operators.length + output.length) ∧
    (∀ rpn, toPostfix tokens = some rpn →
      rpn.length ≤ MAX_TOKENS ∧
      ∀ n value_stack, evaluateLoop ops (rpn.take n) [] = Except.ok value_stack →
        value_stack.length ≤ (rpn.take n).length ∧ value_stack.length ≤ MAX_TOKENS) ∧
    (∀ (token_stack : TokenStack F) token,
      (push token_stack token).length ≤ MAX_TOKENS → token_stack.length < MAX_TOKENS) := by
  refine ⟨?_, ?_, ?_, ?_, ?_, ?_⟩
  · intro n operators output h
    have hc := (convertLoop_counts _ [] [] operators output h).2
    have hlen : (tokens.take n).length ≤ tokens.length := by
      rw [List.length_take]; exact Nat.min_le_right _ _
    simp only [List.length_nil, Nat.add_zero] at hc
    constructor <;> omega
  · intro precedence operators output
    obtain ⟨moved, h1, h2, _⟩ := moveHigherOrEqual_spec precedence operators output
    rw [h2]
    conv_rhs => rw [h1]
    simp only [List.length_append, List.length_reverse]
    omega
  · intro operators output next h
    obtain ⟨moved, bracket, h1, _, _, h2⟩ :=
      rightBracketBranch_some operators output next.1 next.2 h
    rw [h1, h2]
    simp only [List.length_append, List.length_reverse, List.length_cons]
    omega
  · intro operators output
    rw [drainOperators_eq]
    simp
  · intro rpn hpost
    rw [toPostfix_eq] at hpost
    cases hconv : convertLoop tokens [] [] with
    | none => simp [hconv] at hpost
    | some state =>
      obtain ⟨operators, output⟩ := state
      simp only [hconv, Option.some.injEq] at hpost
      have hc := (convertLoop_counts _ [] [] operators output hconv).2
      simp only [List.length_nil, Nat.add_zero] at hc
      have hrpn : rpn.length ≤ tokens.length := by
        rw [← hpost]
        simp only [List.length_append, List.length_reverse]
        omega
      refine ⟨by omega, ?_⟩
      intro n value_stack hrun
      have h1 := (evaluateLoop_length ops _ [] value_stack hrun).1
      have h2 : countKind TokenKind.VALUE (rpn.take n) ≤ (rpn.take n).length :=
        List.countP_le_length _
      have h3 : (rpn.take n).length ≤ rpn.length := by
        rw [List.length_take]; exact Nat.min_le_right _ _
      simp only [List.length_nil, Nat.zero_add] at h1
      constructor <;> omega
  · intro token_stack token h
    simp only [push, List.length_cons] at h
    omega

theorem stack_bounds_witness :
    (∀ n operators output,
      convertLoop (List.take n [valueToken '1' (1 : Int), operatorToken intOps '+', valueToken '2' 2]) [] [] = some (operators, output) →
      operators.length + output.length ≤ (List.take n [valueToken '1' (1 : Int), operatorToken intOps '+', valueToken '2' 2]).length ∧
      operators.length + output.length ≤ MAX_TOKENS) ∧
    (∀ precedence (operators output : TokenStack Int),
      (moveHigherOrEqual precedence operators output).1.length
        + (moveHigherOrEqual precedence operators output).2.length
        = operators.length + output.length) ∧
    (∀ (operators output : TokenStack Int) next,
      rightBracketBranch operators output = some next →
      next.1.length + next.2.length + 1 = operators.length + output.length) ∧
    (∀ operators output : TokenStack Int,
      (drainOperators operators output).2.length = operators.length + output.length) ∧
    (∀ rpn, toPostfix [valueToken '1' (1 : Int), operatorToken intOps '+', valueToken '2' 2] = some rpn →
      rpn.length ≤ MAX_TOKENS ∧
      ∀ n value_stack, evaluateLoop intOps (rpn.take n) [] = Except.ok value_stack →
        value_stack.length ≤ (rpn.take n).length ∧ value_stack.length ≤ MAX_TOKENS) ∧
    (∀ (token_stack : TokenStack Int) token,
      (push token_stack token).length ≤ MAX_TOKENS → token_stack.length < MAX_TOKENS) :=
  stack_bounds intOps [valueToken '1' (1 : Int), operatorToken intOps '+', valueToken '2' 2] (by decide)

/-! ## The postfix sequence as a rearrangement of the input -/

theorem tokensOfKind_cons {F : Type} (kind : TokenKind) (token : Token F)
    (rest : List (Token F)) :
    tokensOfKind kind (token :: rest)
      = if token.kind = kind then token :: tokensOfKind kind rest
        else tokensOfKind kind rest := by
  by_cases h : token.kind = kind <;> simp [tokensOfKind, List.filter_cons, h]

theorem tokensOfKind_append {F : Type} (kind : TokenKind) (first second : List (Token F)) :
    tokensOfKind kind (first ++ second)
      = tokensOfKind kind first ++ tokensOfKind kind second := by
  simp [tokensOfKind, List.filter_append]

theorem tokensOfKind_reverse {F : Type} (kind : TokenKind) (tokens : List (Token F)) :
    tokensOfKind kind tokens.reverse = (tokensOfKind kind tokens).reverse := by
  simp [tokensOfKind, List.filter_reverse]

theorem tokensOfKind_eq_nil {F : Type} (kind : TokenKind) (tokens : List (Token F))
    (h : ∀ token ∈ tokens, token.kind ≠ kind) : tokensOfKind kind tokens = [] := by
  simp only [tokensOfKind, List.filter_eq_nil_iff, decide_eq_true_eq]
  exact h

/-- The conversion loop appends the `VALUE` tokens to the output in the order
in which it reads them. -/
theorem convertLoop_values {F : Type} :
    ∀ (tokens : List (Token F)) (operators output operators' output' : TokenStack F),
      convertLoop tokens operators output = some (operators', output') →
      (∀ token ∈ operators,
        token.kind = TokenKind.OPERATOR ∨ token.kind = TokenKind.LEFT_BRACKET) →
      tokensOfKind TokenKind.VALUE output'.reverse
        = tokensOfKind TokenKind.VALUE output.reverse
          ++ tokensOfKind TokenKind.VALUE tokens := by
  have hnot : ∀ (stack : List (Token F)),
      (∀ token ∈ stack,
        token.kind = TokenKind.OPERATOR ∨ token.kind = TokenKind.LEFT_BRACKET) →
      tokensOfKind TokenKind.VALUE stack = [] := by
    intro stack hstack
    apply tokensOfKind_eq_nil
    intro token ht hk
    rcases hstack token ht with h | h <;> rw [hk] at h <;> cases h
  intro tokens
  induction tokens with
  | nil =>
    intro operators output operators' output' h _
    simp only [convertLoop, Option.some.injEq, Prod.mk.injEq] at h
    rw [← h.2]
    simp [tokensOfKind]
  | cons head rest ih =>
    intro operators output operators' output' h hinv
    rw [convertLoop_cons] at h
    rw [tokensOfKind_cons]
    cases hk : head.kind with
    | VALUE =>
      simp only [hk] at h
      rw [ih _ _ _ _ h hinv]
      simp [push, tokensOfKind_append, tokensOfKind_cons, hk, tokensOfKind]
    | OPERATOR =>
      simp only [hk] at h
      obtain ⟨moved, remaining, hsplit, hbranch, _⟩ := operatorBranch_spec head operators output
      rw [hbranch] at h
      have hmoved := hnot moved
        (fun t ht => hinv t (by rw [hsplit]; exact List.mem_append_left _ ht))
      rw [ih _ _ _ _ h (by
        intro token ht
        rcases List.mem_cons.1 ht with rfl | ht
        · exact Or.inl hk
        · exact hinv token (by rw [hsplit]; exact List.mem_append_right _ ht))]
      simp [tokensOfKind_append, tokensOfKind_reverse, hmoved]
    | LEFT_BRACKET =>
      simp only [hk] at h
      rw [ih _ _ _ _ h (by
        intro token ht
        rcases List.mem_cons.1 ht with rfl | ht
        · exact Or.inr hk
        · exact hinv token ht)]
      simp
    | RIGHT_BRACKET =>
      simp only [hk] at h
      cases hb : rightBracketBranch operators output with
      | none => simp [hb] at h
      | some next =>
        obtain ⟨remaining, output''⟩ := next
        simp only [hb] at h
        obtain ⟨moved, bracket, hsplit, _, _, hout⟩ := rightBracketBranch_some _ _ _ _ hb
        have hmoved := hnot moved
          (fun t ht => hinv t (by rw [hsplit]; simp [ht]))
        rw [ih _ _ _ _ h (by
          intro token ht
          exact hinv token (by rw [hsplit]; simp [ht]))]
        subst hout
        simp [tokensOfKind_append, tokensOfKind_reverse, hmoved]

/-- The conversion loop keeps every `OPERATOR` token: those on the two stacks
are, as a multiset, those read together with those there at the start. -/
theorem convertLoop_operators {F : Type} :
    ∀ (tokens : List (Token F)) (operators output operators' output' : TokenStack F),
      convertLoop tokens operators output = some (operators', output') →
      ((tokensOfKind TokenKind.OPERATOR operators' : Multiset (Token F))
          + (tokensOfKind TokenKind.OPERATOR output' : Multiset (Token F)))
        = (tokensOfKind TokenKind.OPERATOR tokens : Multiset (Token F))
          + ((tokensOfKind TokenKind.OPERATOR operators : Multiset (Token F))
            + (tokensOfKind TokenKind.OPERATOR output : Multiset (Token F))) := by
  intro tokens
  induction tokens with
  | nil =>
    intro operators output operators' output' h
    simp only [convertLoop, Option.some.injEq, Prod.mk.injEq] at h
    rw [← h.1, ← h.2]
    simp [tokensOfKind]
  | cons head rest ih =>
    intro operators output operators' output' h
    rw [convertLoop_cons] at h
    cases hk : head.kind with
    | VALUE =>
      simp only [hk] at h
      rw [ih _ _ _ _ h]
      simp [push, tokensOfKind_cons, hk]
    | OPERATOR =>
      simp only [hk] at h
      obtain ⟨moved, remaining, hsplit, hbranch, _⟩ := operatorBranch_spec head operators output
      rw [hbranch] at h
      rw [ih _ _ _ _ h, hsplit]
      simp only [tokensOfKind_cons, tokensOfKind_append, tokensOfKind_reverse, hk, if_true,
        ← Multiset.coe_add, ← Multiset.cons_coe, Multiset.coe_reverse]
      simp only [Multiset.cons_add, Multiset.add_cons]
      congr 1
      abel
    | LEFT_BRACKET =>
      simp only [hk] at h
      rw [ih _ _ _ _ h]
      simp [push, tokensOfKind_cons, hk]
    | RIGHT_BRACKET =>
      simp only [hk] at h
      cases hb : rightBracketBranch operators output with
      | none => simp [hb] at h
      | some next =>
        obtain ⟨remaining, output''⟩ := next
        simp only [hb] at h
        obtain ⟨moved, bracket, hsplit, hbk, _, hout⟩ := rightBracketBranch_some _ _ _ _ hb
        rw [ih _ _ _ _ h, hsplit, hout]
        simp only [tokensOfKind_cons, tokensOfKind_append, tokensOfKind_reverse, hk, hbk,
          reduceCtorEq, if_false, ← Multiset.coe_add, Multiset.coe_reverse]
        congr 1
        abel

/-- Bracket bookkeeping of the conversion loop: a right bracket is never
stored, and each one read removes one left bracket. -/
theorem convertLoop_brackets {F : Type} :
    ∀ (tokens : List (Token F)) (operators output operators' output' : TokenStack F),
      convertLoop tokens operators output = some (operators', output') →
      countKind TokenKind.RIGHT_BRACKET operators' + countKind TokenKind.RIGHT_BRACKET output'
        = countKind TokenKind.RIGHT_BRACKET operators
          + countKind TokenKind.RIGHT_BRACKET output ∧
      countKind TokenKind.LEFT_BRACKET operators' + countKind TokenKind.LEFT_BRACKET output'
          + countKind TokenKind.RIGHT_BRACKET tokens
        = countKind TokenKind.LEFT_BRACKET tokens + countKind TokenKind.LEFT_BRACKET operators
          + countKind TokenKind.LEFT_BRACKET output := by
  intro tokens
  induction tokens with
  | nil =>
    intro operators output operators' output' h
    simp only [convertLoop, Option.some.injEq, Prod.mk.injEq] at h
    obtain ⟨h1, h2⟩ := h
    subst h1 h2
    simp [countKind_nil]
  | cons head rest ih =>
    intro operators output operators' output' h
    rw [convertLoop_cons] at h
    simp only [countKind_cons]
    cases hk : head.kind with
    | VALUE =>
      simp only [hk] at h
      obtain ⟨h1, h2⟩ := ih _ _ _ _ h
      simp only [push, countKind_cons, hk, reduceCtorEq, if_true, if_false] at h1 h2 ⊢
      omega
    | OPERATOR =>
      simp only [hk] at h
      obtain ⟨moved, remaining, hsplit, hbranch, _⟩ := operatorBranch_spec head operators output
      rw [hbranch] at h
      obtain ⟨h1, h2⟩ := ih _ _ _ _ h
      subst hsplit
      simp only [countKind_cons, countKind_append, countKind_reverse, hk, reduceCtorEq,
        if_true, if_false] at h1 h2 ⊢
      omega
    | LEFT_BRACKET =>
      simp only [hk] at h
      obtain ⟨h1, h2⟩ := ih _ _ _ _ h
      simp only [push, countKind_cons, hk, reduceCtorEq, if_true, if_false] at h1 h2 ⊢
      omega
    | RIGHT_BRACKET =>
      simp only [hk] at h
      cases hb : rightBracketBranch operators output with
      | none => simp [hb] at h
      | some next =>
        obtain ⟨remaining, output''⟩ := next
        simp only [hb] at h
        obtain ⟨moved, bracket, hsplit, hbk, _, hout⟩ := rightBracketBranch_some _ _ _ _ hb
        obtain ⟨h1, h2⟩ := ih _ _ _ _ h
        subst hsplit hout
        simp only [countKind_cons, countKind_append, countKind_reverse, hbk, reduceCtorEq,
          if_true, if_false] at h1 h2 ⊢
        omega

/-- A conversion that does not return early never met a right bracket with no
left bracket open. -/
theorem convertLoop_depth {F : Type} :
    ∀ (tokens : List (Token F)) (operators output : TokenStack F)
      (state : TokenStack F × TokenStack F) (depth : Nat),
      convertLoop tokens operators output = some state →
      countKind TokenKind.LEFT_BRACKET operators ≤ depth →
      ∃ final, bracketDepth tokens depth = some final := by
  intro tokens
  induction tokens with
  | nil => intro operators output state depth _ _; exact ⟨depth, rfl⟩
  | cons head rest ih =>
    intro operators output state depth h hle
    rw [convertLoop_cons] at h
    rw [bracketDepth_cons]
    cases hk : head.kind with
    | VALUE =>
      simp only [hk] at h
      exact ih _ _ state depth h hle
    | OPERATOR =>
      simp only [hk] at h
      obtain ⟨moved, remaining, hsplit, hbranch, _⟩ := operatorBranch_spec head operators output
      rw [hbranch] at h
      apply ih _ _ state depth h
      rw [hsplit, countKind_append] at hle
      rw [countKind_cons, hk]
      simp only [reduceCtorEq, if_false]
      omega
    | LEFT_BRACKET =>
      simp only [hk] at h
      apply ih _ _ state (depth + 1) h
      rw [push, countKind_cons, hk]
      simp only [if_true]
      omega
    | RIGHT_BRACKET =>
      simp only [hk] at h
      cases hb : rightBracketBranch operators output with
      | none => simp [hb] at h
      | some next =>
        obtain ⟨remaining, output''⟩ := next
        simp only [hb] at h
        obtain ⟨moved, bracket, hsplit, hbk, _, _⟩ := rightBracketBranch_some _ _ _ _ hb
        rw [hsplit, countKind_append, countKind_cons, hbk] at hle
        simp only [if_true] at hle
        cases depth with
        | zero => omega
        | succ before =>
          simp only
          apply ih _ _ state before h
          omega

theorem bracketDepth_some_count {F : Type} :
    ∀ (tokens : List (Token F)) (depth final : Nat),
      bracketDepth tokens depth = some final →
      final + countKind TokenKind.RIGHT_BRACKET tokens
        = depth + countKind TokenKind.LEFT_BRACKET tokens := by
  intro tokens
  induction tokens with
  | nil =>
    intro depth final h
    simp only [bracketDepth, Option.some.injEq] at h
    simp [countKind_nil, h]
  | cons head rest ih =>
    intro depth final h
    rw [bracketDepth_cons] at h
    simp only [countKind_cons]
    cases hk : head.kind with
    | VALUE =>
      simp only [hk] at h
      have := ih _ _ h
      simp only [reduceCtorEq, if_false]
      omega
    | OPERATOR =>
      simp only [hk] at h
      have := ih _ _ h
      simp only [reduceCtorEq, if_false]
      omega
    | LEFT_BRACKET =>
      simp only [hk] at h
      have := ih _ _ h
      simp only [reduceCtorEq, if_true, if_false]
      omega
    | RIGHT_BRACKET =>
      simp only [hk] at h
      cases depth with
      | zero => simp at h
      | succ before =>
        simp only at h
        have := ih _ _ h
        simp only [reduceCtorEq, if_true, if_false]
        omega

/-- C19: when the conversion does not report a mismatched parenthesis, the
postfix sequence holds the `VALUE` tokens of the input in the same order, a
permutation of its `OPERATOR` tokens, no `RIGHT_BRACKET` token, and as many
`LEFT_BRACKET` tokens as left brackets of the input are still open at its
end, which is the number of left brackets minus the number of right brackets
(none when they balance); each right bracket shortens the sequence by two
tokens, itself and the left bracket it closes. -/
theorem toPostfix_rearranges {F : Type} (tokens rpn : List (Token F))
    (h : toPostfix tokens = some rpn) :
    tokensOfKind TokenKind.VALUE rpn = tokensOfKind TokenKind.VALUE tokens ∧
    (tokensOfKind TokenKind.OPERATOR rpn).Perm (tokensOfKind TokenKind.OPERATOR tokens) ∧
    countKind TokenKind.RIGHT_BRACKET rpn = 0 ∧
    bracketDepth tokens 0 = some (countKind TokenKind.LEFT_BRACKET rpn) ∧
    countKind TokenKind.LEFT_BRACKET rpn + countKind TokenKind.RIGHT_BRACKET tokens
      = countKind TokenKind.LEFT_BRACKET tokens ∧
    rpn.length + 2 * countKind TokenKind.RIGHT_BRACKET tokens = tokens.length := by
  rw [toPostfix_eq] at h
  cases hconv : convertLoop tokens [] [] with
  | none => simp [hconv] at h
  | some state =>
    obtain ⟨operators, output⟩ := state
    simp only [hconv, Option.some.injEq] at h
    subst h
    have hkinds := convertLoop_stack_kinds tokens [] [] operators output hconv (by simp)
    have hvalues := convertLoop_values tokens [] [] operators output hconv (by simp)
    have hops := convertLoop_operators tokens [] [] operators output hconv
    obtain ⟨hright, hleft⟩ := convertLoop_brackets tokens [] [] operators output hconv
    have hlen := (convertLoop_counts tokens [] [] operators output hconv).2
    obtain ⟨final, hdepth⟩ := convertLoop_depth tokens [] [] _ 0 hconv (by simp [countKind_nil])
    have hfinal := bracketDepth_some_count tokens 0 final hdepth
    simp only [countKind_nil, List.length_nil, Nat.add_zero, Nat.zero_add] at hright hleft hlen hfinal
    refine ⟨?_, ?_, ?_, ?_, ?_, ?_⟩
    · have hnone : tokensOfKind TokenKind.VALUE operators = [] := by
        apply tokensOfKind_eq_nil
        intro token ht hk
        rcases hkinds token ht with h | h <;> rw [hk] at h <;> cases h
      rw [tokensOfKind_append, hvalues, hnone]
      simp [tokensOfKind]
    · apply Multiset.coe_eq_coe.1
      have hnil : tokensOfKind TokenKind.OPERATOR ([] : List (Token F)) = [] := rfl
      rw [hnil] at hops
      rw [tokensOfKind_append, tokensOfKind_reverse, ← Multiset.coe_add,
        Multiset.coe_reverse, add_comm, hops]
      simp
    · rw [countKind_append, countKind_reverse]
      omega
    · rw [hdepth, countKind_append, countKind_reverse]
      congr 1
      omega
    · rw [countKind_append, countKind_reverse]
      omega
    · rw [List.length_append, List.length_reverse]
      omega

theorem toPostfix_rearranges_witness :
    tokensOfKind TokenKind.VALUE [valueToken '1' (1 : Int), valueToken '2' 2, operatorToken intOps '+',
      valueToken '3' 3, bracketToken intOps '(', operatorToken intOps '*'] = tokensOfKind TokenKind.VALUE [bracketToken intOps '(', valueToken '1' (1 : Int), operatorToken intOps '+',
      valueToken '2' 2, bracketToken intOps ')', operatorToken intOps '*',
      bracketToken intOps '(', valueToken '3' 3] ∧
    (tokensOfKind TokenKind.OPERATOR [valueToken '1' (1 : Int), valueToken '2' 2, operatorToken intOps '+',
      valueToken '3' 3, bracketToken intOps '(', operatorToken intOps '*']).Perm (tokensOfKind TokenKind.OPERATOR [bracketToken intOps '(', valueToken '1' (1 : Int), operatorToken intOps '+',
      valueToken '2' 2, bracketToken intOps ')', operatorToken intOps '*',
      bracketToken intOps '(', valueToken '3' 3]) ∧
    countKind TokenKind.RIGHT_BRACKET [valueToken '1' (1 : Int), valueToken '2' 2, operatorToken intOps '+',
      valueToken '3' 3, bracketToken intOps '(', operatorToken intOps '*'] = 0 ∧
    bracketDepth [bracketToken intOps '(', valueToken '1' (1 : Int), operatorToken intOps '+',
      valueToken '2' 2, bracketToken intOps ')', operatorToken intOps '*',
      bracketToken intOps '(', valueToken '3' 3] 0 = some (countKind TokenKind.LEFT_BRACKET [valueToken '1' (1 : Int), valueToken '2' 2, operatorToken intOps '+',
      valueToken '3' 3, bracketToken intOps '(', operatorToken intOps '*']) ∧
    countKind TokenKind.LEFT_BRACKET [valueToken '1' (1 : Int), valueToken '2' 2, operatorToken intOps '+',
      valueToken '3' 3, bracketToken intOps '(', operatorToken intOps '*'] + countKind TokenKind.RIGHT_BRACKET [bracketToken intOps '(', valueToken '1' (1 : Int), operatorToken intOps '+',
      valueToken '2' 2, bracketToken intOps ')', operatorToken intOps '*',
      bracketToken intOps '(', valueToken '3' 3]
      = countKind TokenKind.LEFT_BRACKET [bracketToken intOps '(', valueToken '1' (1 : Int), operatorToken intOps '+',
      valueToken '2' 2, bracketToken intOps ')', operatorToken intOps '*',
      bracketToken intOps '(', valueToken '3' 3] ∧
    ([valueToken '1' (1 : Int), valueToken '2' 2, operatorToken intOps '+',
      valueToken '3' 3, bracketToken intOps '(', operatorToken intOps '*']).length + 2 * countKind TokenKind.RIGHT_BRACKET [bracketToken intOps '(', valueToken '1' (1 : Int), operatorToken intOps '+',
      valueToken '2' 2, bracketToken intOps ')', operatorToken intOps '*',
      bracketToken intOps '(', valueToken '3' 3] = ([bracketToken intOps '(', valueToken '1' (1 : Int), operatorToken intOps '+',
      valueToken '2' 2, bracketToken intOps ')', operatorToken intOps '*',
      bracketToken intOps '(', valueToken '3' 3]).length :=
  toPostfix_rearranges [bracketToken intOps '(', valueToken '1' (1 : Int), operatorToken intOps '+',
      valueToken '2' 2, bracketToken intOps ')', operatorToken intOps '*',
      bracketToken intOps '(', valueToken '3' 3] [valueToken '1' (1 : Int), valueToken '2' 2, operatorToken intOps '+',
      valueToken '3' 3, bracketToken intOps '(', operatorToken intOps '*'] (by decide)

end ShuntingYard
